import Mathlib

/-!
# Verification of the `reversesearch` backward log-file search

Shallow embedding of the Go package `reversesearch` (file `reversesearch.go`):
the growable byte buffer (`increaseBufLen`), the per-line classifier
(`processLine`), the per-window scanner (`findLogEntries`), and the windowed
driver (`ReverseSearch`), together with theorems about the chronological
filter/abort behaviour, the window management, validation and error reporting.

Modelling conventions:
* Bytes are natural numbers; a file is a `List Byte`; Go slicing `buf[a:b]`
  becomes `subslice buf a b` (total, reachable calls always have `a ≤ b ≤ len`).
* The regular-expression engine and timestamp parsing are out of scope in the
  source design and are consumed as opaque capabilities: a `Regexp` is its
  `FindSubmatch : List Byte → Option (List (List Byte))` function, a
  `TimeFormat` is its parsing function `List Byte → Time`.
* Go `time.Time` is modelled by `Time`: the zero `Time` is `Time.mk none`,
  an instant `t` is `Time.mk (some t)` (`time.Parse` failures return the
  zero `Time` together with the error, so parsing is modelled by its
  returned `Time` alone; the source's `err != nil` sanity branch after the
  `IsZero` check is unreachable for Go's `time.Parse`).
* The output handler is observed through the list of byte spans dispatched
  to it, accumulated in order of dispatch.
* Go `int` arithmetic on buffer indices uses `Nat` here; along all reachable
  driver states those quantities are non-negative (the single transiently
  negative quantity, `bufOffset` after a subtraction, is handled by explicit
  truncated cases mirroring the source's `if bufOffset < 0` blocks).
* Errors are an inductive `RSError` mirroring the error strings of the
  package (`customerrors` file).
-/

namespace RSearch

/-- Bytes of the log file, as natural numbers ('\n' is 10, '\r' is 13). -/
abbrev Byte := Nat

/-- Model of Go `time.Time` restricted to what the source uses: the zero
test and a totally ordered instant. `Time.mk none` is the zero `Time`. -/
structure Time where
  instant : Option Nat
deriving DecidableEq, Repr

/-- Go `Time.IsZero`. -/
def Time.isZero (t : Time) : Bool := t.instant.isNone

/-- The instant carried by a non-zero `Time` (0 for the zero `Time`). -/
def Time.val (t : Time) : Nat := t.instant.getD 0

/-- Go `t.Before(u)`. -/
def Time.before (t u : Time) : Bool := t.val < u.val

/-- Go `t.After(u)`. -/
def Time.after (t u : Time) : Bool := u.val < t.val

/-- Go `t.Equal(u)`. -/
def Time.equal (t u : Time) : Bool := t.val == u.val

/-- A compiled regular expression, consumed as an opaque matching capability
(the engine is an external collaborator in the source design): Go
`FindSubmatch` returns `none` when the pattern does not match, otherwise the
full match followed by one entry per capturing group. -/
structure Regexp where
  findSubmatch : List Byte → Option (List (List Byte))

/-- Go `re.Match(b)` holds exactly when `FindSubmatch` is non-nil. -/
def Regexp.isMatch (re : Regexp) (b : List Byte) : Bool :=
  (re.findSubmatch b).isSome

/-- A timestamp format descriptor, consumed as its parsing semantics:
`time.Parse(format, s)` returns the zero `Time` exactly when it fails. -/
structure TimeFormat where
  parse : List Byte → Time

/-- The error values of the package (`customerrors` constants plus the
inline `errors.New` messages of `reversesearch.go`). -/
inductive RSError where
  | noLogEntriesInFile
  | noMoreLogEntries (offset : Int)
  | noLeTimeFormat
  | noLeStartPattern
  | fromTimeAfterUntilTime
  | maxBufLenReached
  | leStartPatternBadlyFormedNoGroup
  | leStartPatternBadlyFormedExtraGroups
  | matchesEmpty
  | leTimeFormatMismatch
  | bufOffsetLessThanZero
  | lastLePosMoreThanBufLen
  | badRegexps
  | badLeStartPattern
  | ioError
deriving DecidableEq, Repr

/-- Go slicing `l[a:b]` (the source only slices with `a ≤ b ≤ len l`). -/
def subslice (l : List Byte) (a b : Nat) : List Byte :=
  (l.drop a).take (b - a)

/-- Embeds `increaseBufLen` (source lines 96-126): doubles the buffer
(capped at `maxBufLen`, with the `len = 0` sanity case going to length 1),
copies the old bytes to the right end of the new zero-filled buffer, and
returns the number of added bytes; errors when the buffer already has
length at least `maxBufLen`. -/
def increaseBufLen (maxBufLen : Nat) (buf : List Byte) :
    Except RSError (Nat × List Byte) :=
  if maxBufLen ≤ buf.length then
    .error .maxBufLenReached
  else
    let newBufLen := if buf.length == 0 then 1 else min (buf.length * 2) maxBufLen
    let nAdded := newBufLen - buf.length
    .ok (nAdded, List.replicate nAdded 0 ++ buf)

/-- Embeds `processLogEntry` (source lines 131-140): a log entry matching
every content regexp is dispatched to the output handler, observed here by
appending to the list of dispatched entries. A Go `nil` regexp slice and an
empty slice both dispatch unconditionally, so both are the empty list. -/
def processLogEntry (logEntry : List Byte) (regexps : List Regexp)
    (dispatched : List (List Byte)) : List (List Byte) :=
  if regexps.all (fun re => re.isMatch logEntry) then dispatched ++ [logEntry]
  else dispatched

/-- Embeds `processLine` (source lines 150-202). Returns
`(startOfLe, fromTimeSatisfied, untilTimeSatisfied, err)`. The local
`matches` of the source is `ms` here (`matches` is a Lean keyword). -/
def processLine (line : List Byte) (leStartRegexp : Regexp)
    (leTimeFormat : TimeFormat) (fromTime untilTime : Time) :
    Bool × Bool × Bool × Option RSError :=
  match leStartRegexp.findSubmatch line with
  | none => (false, false, false, none)
  | some ms =>
    if fromTime.isZero && untilTime.isZero then
      (true, true, true, none)
    else if ms.length == 0 then
      (true, false, false, some .matchesEmpty)
    else if ms.length < 2 then
      (true, false, false, some .leStartPatternBadlyFormedNoGroup)
    else if 2 < ms.length then
      (true, false, false, some .leStartPatternBadlyFormedExtraGroups)
    else
      let leTimeB := ms.getD 1 []
      let leTime := leTimeFormat.parse leTimeB
      if leTime.isZero then
        (true, false, false, some .leTimeFormatMismatch)
      else
        let fromTimeSatisfied :=
          if fromTime.isZero then true
          else fromTime.before leTime || fromTime.equal leTime
        let untilTimeSatisfied :=
          if untilTime.isZero then true
          else untilTime.after leTime
        (true, fromTimeSatisfied, untilTimeSatisfied, none)

/-- Embeds the newline-cataloguing loop of `findLogEntries` (source lines
274-282): walks `bufIndex` up to `scanToPos` inclusive, pushing
`(position, width)` records onto the stack (a `\r\n` found with its `\n` at
`bufIndex` is recorded at `bufIndex - 1` with width 2, a bare `\n` at
`bufIndex` with width 1). The stack is a list with the most recently pushed
record at the head. -/
def nlScanAux (buf : List Byte) (scanToPos : Nat) :
    Nat → Nat → List (Nat × Nat) → List (Nat × Nat)
  | 0, _, stack => stack
  | remaining + 1, bufIndex, stack =>
    if bufIndex ≤ scanToPos then
      let stack' :=
        if buf.getD (bufIndex - 1) 0 == 13 && buf.getD bufIndex 0 == 10 then
          (bufIndex - 1, 2) :: stack
        else if buf.getD bufIndex 0 == 10 then
          (bufIndex, 1) :: stack
        else stack
      nlScanAux buf scanToPos remaining (bufIndex + 1) stack'
    else stack

/-- The loop `for bufIndex <= scanToPos` itself, with the iteration count
(`scanToPos + 1 - bufIndex`, the exact number of remaining iterations)
made explicit so the recursion is structural. -/
def nlScan (buf : List Byte) (scanToPos : Nat) (bufIndex : Nat)
    (stack : List (Nat × Nat)) : List (Nat × Nat) :=
  nlScanAux buf scanToPos (scanToPos + 1 - bufIndex) bufIndex stack

/-- Embeds the reverse line-traversal loop of `findLogEntries` (source lines
285-319): pops newline records (head of the list first), classifies the
line between each newline and the previously processed one with
`processLine`, dispatches assembled entries that satisfy both time
constraints, aborts on a `fromTime` failure, and threads
`lastLePos`/`lastNlPos`. Returns
`(lastLePos, lastNlPos, abort, err, dispatched)`. -/
def fleLoop (buf : List Byte) (leStartRegexp : Regexp)
    (leTimeFormat : TimeFormat) (fromTime untilTime : Time)
    (regexps : List Regexp) :
    List (Nat × Nat) → Nat → Nat → List (List Byte) →
      Nat × Nat × Bool × Option RSError × List (List Byte)
  | [], lastLePos, lastNlPos, dispatched =>
    (lastLePos, lastNlPos, false, none, dispatched)
  | (nlPos, nlSize) :: rest, lastLePos, lastNlPos, dispatched =>
    match processLine (subslice buf (nlPos + nlSize) lastNlPos) leStartRegexp
        leTimeFormat fromTime untilTime with
    | (startOfLe, fromTimeSatisfied, untilTimeSatisfied, err) =>
      match err with
      | some e =>
        (if startOfLe then nlPos else lastLePos, nlPos, false, some e, dispatched)
      | none =>
        if startOfLe then
          if fromTimeSatisfied = false then
            (nlPos, nlPos, true, none, dispatched)
          else
            let dispatched' :=
              if untilTimeSatisfied then
                processLogEntry (subslice buf (nlPos + nlSize) lastLePos)
                  regexps dispatched
              else dispatched
            fleLoop buf leStartRegexp leTimeFormat fromTime untilTime regexps
              rest nlPos nlPos dispatched'
        else
          fleLoop buf leStartRegexp leTimeFormat fromTime untilTime regexps
            rest lastLePos nlPos dispatched

/-- Embeds `findLogEntries` (source lines 227-322): catalogues the newlines
of the not-yet-analysed span of `buf` (with the file-start corner case when
`bOffset = 0` and the `scanToPos` adjustment for a `\n` that was sitting at
`buf[0]` on the previous call), then traverses the catalogued lines in
reverse with `fleLoop`. Returns
`(lastLePos, lastNlPos, abort, err, dispatched)`. -/
def findLogEntries (buf : List Byte) (bOffset : Int)
    (scanToPos lastNlPos : Nat) (leStartRegexp : Regexp)
    (leTimeFormat : TimeFormat) (fromTime untilTime : Time)
    (regexps : List Regexp) :
    Nat × Nat × Bool × Option RSError × List (List Byte) :=
  let bufLen := buf.length
  let lastLePos := bufLen
  if bOffset < 0 then
    (lastLePos, lastNlPos, false, some .bufOffsetLessThanZero, [])
  else
    let init : Nat × List (Nat × Nat) :=
      if bOffset == 0 then
        if buf.getD 0 0 == 10 then (1, [(0, 1)])
        else if decide (2 ≤ bufLen) && buf.getD 0 0 == 13 &&
            buf.getD 1 0 == 10 then (2, [(0, 2)])
        else (1, [(0, 0)])
      else (1, [])
    let scanToPos' := if scanToPos < bufLen - 1 then scanToPos + 1 else scanToPos
    let stack := nlScan buf scanToPos' init.1 init.2
    fleLoop buf leStartRegexp leTimeFormat fromTime untilTime regexps
      stack lastLePos lastNlPos []

/-- Go `file.ReadAt` viewed as a pure function on the file bytes: the bytes
delivered by reading `n` bytes at offset `off` (fewer when the file ends
before `off + n`; the driver's loop reads stay inside the file). -/
def readAt (file : List Byte) (off n : Nat) : List Byte :=
  (file.drop off).take n

/-- Go `file.ReadAt(dest[:n], off)` on a destination buffer `dest`: the
delivered bytes overwrite the front of `dest`, the rest of `dest` is
untouched (the driver ignores the returned error, source lines 500 and
529, so a short read leaves old bytes in place exactly as in Go). -/
def readInto (file : List Byte) (off : Nat) (dest : List Byte) (n : Nat) :
    List Byte :=
  let r := readAt file off n
  r ++ dest.drop r.length

/-- Result state of the shift-and-refill step of the driver loop. -/
structure ShiftRead where
  buf : List Byte
  scanToPos : Nat
  lastNlPos : Nat
  bufOffset : Nat
deriving DecidableEq, Repr

/-- Embeds the `lastLePos < bufLen` branch of the driver loop (source lines
469-500): the bytes `buf[0:lastLePos]` are shifted as far right as possible
in unchanged order, `scanToPos`/`lastNlPos`/`bufOffset` are updated, the
window is truncated on the left when the decremented offset would go before
the file start (source lines 490-496), and `bufLen - lastLePos` new bytes
are read at the new offset into the freed left portion. The driver only
reaches this step with `0 < bufOffset` and `lastLePos < buf.length`, where
the `Nat` subtractions below agree with the source's `int` arithmetic. -/
def shiftAndRead (file : List Byte) (buf : List Byte)
    (lastLePos lastNlPos : Nat) (bufOffset : Nat) : ShiftRead :=
  let bufLen := buf.length
  let shifted := buf.take (bufLen - lastLePos) ++ buf.take lastLePos
  let scanToPos := bufLen - lastLePos - 1
  let lastNlPos' := lastNlPos + (bufLen - lastLePos)
  let d := bufLen - lastLePos
  if bufOffset < d then
    let t := d - bufOffset
    let buf' := shifted.drop t
    let bufLen' := bufLen - t
    ShiftRead.mk (readInto file 0 buf' (bufLen' - lastLePos))
      (scanToPos - t) (lastNlPos' - t) 0
  else
    ShiftRead.mk (readInto file (bufOffset - d) shifted d)
      scanToPos lastNlPos' (bufOffset - d)

/-- Result state of the grow-and-refill step of the driver loop. -/
structure GrowRead where
  buf : List Byte
  nAdded : Nat
  scanToPos : Nat
  lastNlPos : Nat
  bufOffset : Nat
deriving DecidableEq, Repr

/-- Embeds the `lastLePos == bufLen` branch of the driver loop (source
lines 501-529): grows the buffer with `increaseBufLen`, truncates on the
left when the decremented offset would go before the file start (source
lines 516-521, where `nAdded` shrinks to the old `bufOffset`), and reads
the `nAdded` new bytes at the new offset. -/
def growAndRead (file : List Byte) (maxBufLen : Nat) (buf : List Byte)
    (lastNlPos : Nat) (bufOffset : Nat) : Except RSError GrowRead :=
  match increaseBufLen maxBufLen buf with
  | .error e => .error e
  | .ok (nAdded, buf1) =>
    if bufOffset < nAdded then
      let t := nAdded - bufOffset
      let buf2 := buf1.drop t
      let nAdded' := bufOffset
      .ok (GrowRead.mk (readInto file 0 buf2 nAdded') nAdded'
        (nAdded' - 1) (lastNlPos + nAdded') 0)
    else
      .ok (GrowRead.mk (readInto file (bufOffset - nAdded) buf1 nAdded)
        nAdded (nAdded - 1) (lastNlPos + nAdded) (bufOffset - nAdded))

/-- A successful `increaseBufLen` adds at least one byte. -/
theorem increaseBufLen_ok_pos {maxBufLen : Nat} {buf : List Byte}
    {nAdded : Nat} {buf1 : List Byte}
    (h : increaseBufLen maxBufLen buf = .ok (nAdded, buf1)) : 1 ≤ nAdded := by
  unfold increaseBufLen at h
  split at h
  · exact absurd h (by simp)
  · rename_i hlt
    simp only [Except.ok.injEq, Prod.mk.injEq] at h
    rcases h with ⟨h1, -⟩
    subst h1
    split
    · rename_i h0
      simp only [beq_iff_eq, List.length_eq_zero] at h0
      simp [h0]
    · rename_i h0
      simp only [beq_iff_eq, List.length_eq_zero] at h0
      have hpos : 1 ≤ buf.length := by
        rcases buf with - | ⟨b, bs⟩
        · exact absurd rfl h0
        · simp
      omega

/-- The shift-and-refill step strictly decreases `bufOffset` whenever the
driver takes it (`lastLePos < buf.length` and `0 < bufOffset`). -/
theorem shiftAndRead_bufOffset_lt {file buf : List Byte}
    {lastLePos lastNlPos bufOffset : Nat} (hle : lastLePos < buf.length)
    (hpos : 0 < bufOffset) :
    (shiftAndRead file buf lastLePos lastNlPos bufOffset).bufOffset <
      bufOffset := by
  unfold shiftAndRead
  dsimp only
  split
  · simpa using hpos
  · rename_i hge
    simp only
    omega

/-- The grow-and-refill step strictly decreases `bufOffset` whenever it
succeeds and `0 < bufOffset`. -/
theorem growAndRead_bufOffset_lt {file buf : List Byte}
    {maxBufLen lastNlPos bufOffset : Nat} {gr : GrowRead}
    (h : growAndRead file maxBufLen buf lastNlPos bufOffset = .ok gr)
    (hpos : 0 < bufOffset) : gr.bufOffset < bufOffset := by
  unfold growAndRead at h
  split at h
  · exact absurd h (by simp)
  · rename_i nAdded buf1 hinc
    have hn : 1 ≤ nAdded := increaseBufLen_ok_pos hinc
    split at h
    · simp only [Except.ok.injEq] at h
      subst h
      simpa using hpos
    · simp only [Except.ok.injEq] at h
      subst h
      simp only
      omega

/-- Embeds the post-loop checks of `ReverseSearch` (source lines 545-555). -/
def rsLoopPost (fileSize : Nat) (bufOffset lastLePos : Nat) (abort : Bool)
    (dispatched : List (List Byte)) : Int × Option RSError × List (List Byte) :=
  if bufOffset = 0 ∧ lastLePos ≠ 0 ∧ abort = false then
    if lastLePos = fileSize then (-1, some .noLogEntriesInFile, dispatched)
    else
      (-1, some (.noMoreLogEntries (Int.ofNat (bufOffset + lastLePos))),
        dispatched)
  else
    (0, none, dispatched)

/-- Embeds the reading/scanning loop of `ReverseSearch` together with the
post-loop checks (source lines 468-555). State: the window `buf`, the file
offset `bufOffset` of the window's first byte, `lastLePos`/`lastNlPos` as
returned by the previous scan, the abort flag, and the entries dispatched
so far. Returns `(exitStatus, err, dispatched)`.

Each iteration strictly decreases `bufOffset` (see
`shiftAndRead_bufOffset_lt` and `growAndRead_bufOffset_lt`), so the loop
is written with an explicit iteration budget `fuel` to keep the recursion
structural; any `fuel ≥ bufOffset` gives the loop's true behaviour
(`rsLoop_fuel_irrelevant`), and `ReverseSearch` supplies
`fuel = fileSize = initial bufOffset`. On exhausted fuel (unreachable from
`ReverseSearch`) the post-loop checks run directly. -/
def rsLoop (file : List Byte) (leStartRegexp : Regexp)
    (leTimeFormat : TimeFormat) (fromTime untilTime : Time)
    (regexps : List Regexp) (maxBufLen fileSize : Nat) (fuel : Nat)
    (buf : List Byte) (bufOffset lastLePos lastNlPos : Nat) (abort : Bool)
    (dispatched : List (List Byte)) : Int × Option RSError × List (List Byte) :=
  if 0 < bufOffset ∧ abort = false then
    match fuel with
    | 0 => rsLoopPost fileSize bufOffset lastLePos abort dispatched
    | fuel + 1 =>
      if lastLePos < buf.length then
        let sr := shiftAndRead file buf lastLePos lastNlPos bufOffset
        match findLogEntries sr.buf (Int.ofNat sr.bufOffset) sr.scanToPos
            sr.lastNlPos leStartRegexp leTimeFormat fromTime untilTime
            regexps with
        | (lastLePos', lastNlPos', abort', err, out) =>
          match err with
          | some e => (-1, some e, dispatched ++ out)
          | none =>
            rsLoop file leStartRegexp leTimeFormat fromTime untilTime
              regexps maxBufLen fileSize fuel sr.buf sr.bufOffset lastLePos'
              lastNlPos' abort' (dispatched ++ out)
      else if lastLePos = buf.length then
        match growAndRead file maxBufLen buf lastNlPos bufOffset with
        | .error e => (-1, some e, dispatched)
        | .ok gr =>
          match findLogEntries gr.buf (Int.ofNat gr.bufOffset) gr.scanToPos
              gr.lastNlPos leStartRegexp leTimeFormat fromTime untilTime
              regexps with
          | (lastLePos', lastNlPos', abort', err, out) =>
            match err with
            | some e => (-1, some e, dispatched ++ out)
            | none =>
              rsLoop file leStartRegexp leTimeFormat fromTime untilTime
                regexps maxBufLen fileSize fuel gr.buf gr.bufOffset
                lastLePos' lastNlPos' abort' (dispatched ++ out)
      else
        (-1, some .lastLePosMoreThanBufLen, dispatched)
  else
    rsLoopPost fileSize bufOffset lastLePos abort dispatched

/-- Any iteration budget at least `bufOffset` gives the same result: the
fuel parameter of `rsLoop` is invisible as long as it dominates the
strictly decreasing `bufOffset`. -/
theorem rsLoop_fuel_irrelevant (file : List Byte) (re : Regexp)
    (fmt : TimeFormat) (fromT untilT : Time) (rgx : List Regexp)
    (maxBufLen fileSize : Nat) :
    ∀ (bufOffset fuel1 fuel2 : Nat) (buf : List Byte)
      (lastLePos lastNlPos : Nat) (abort : Bool)
      (dispatched : List (List Byte)),
      bufOffset ≤ fuel1 → bufOffset ≤ fuel2 →
      rsLoop file re fmt fromT untilT rgx maxBufLen fileSize fuel1 buf
        bufOffset lastLePos lastNlPos abort dispatched =
      rsLoop file re fmt fromT untilT rgx maxBufLen fileSize fuel2 buf
        bufOffset lastLePos lastNlPos abort dispatched := by
  intro bufOffset
  induction bufOffset using Nat.strong_induction_on with
  | _ bufOffset ih =>
    intro fuel1 fuel2 buf lastLePos lastNlPos abort dispatched h1 h2
    by_cases hc : 0 < bufOffset ∧ abort = false
    · rcases fuel1 with - | f1
      · omega
      rcases fuel2 with - | f2
      · omega
      rw [rsLoop.eq_def]
      conv_rhs => rw [rsLoop.eq_def]
      rw [if_pos hc, if_pos hc]
      dsimp only
      by_cases hlt : lastLePos < buf.length
      · rw [if_pos hlt, if_pos hlt]
        rcases hfle : findLogEntries
            (shiftAndRead file buf lastLePos lastNlPos bufOffset).buf
            (Int.ofNat
              (shiftAndRead file buf lastLePos lastNlPos bufOffset).bufOffset)
            (shiftAndRead file buf lastLePos lastNlPos bufOffset).scanToPos
            (shiftAndRead file buf lastLePos lastNlPos bufOffset).lastNlPos
            re fmt fromT untilT rgx with ⟨l', n', a', err, out⟩
        simp only [hfle]
        cases err with
        | some e => rfl
        | none =>
          have hdec := @shiftAndRead_bufOffset_lt file buf lastLePos
            lastNlPos bufOffset hlt hc.1
          exact ih _ hdec _ _ _ _ _ _ _ (by omega) (by omega)
      · rw [if_neg hlt, if_neg hlt]
        by_cases heq : lastLePos = buf.length
        · rw [if_pos heq, if_pos heq]
          rcases hgr : growAndRead file maxBufLen buf lastNlPos bufOffset
            with - | gr
          · rfl
          · simp only
            rcases hfle : findLogEntries gr.buf (Int.ofNat gr.bufOffset)
                gr.scanToPos gr.lastNlPos re fmt fromT untilT rgx
              with ⟨l', n', a', err, out⟩
            simp only [hfle]
            cases err with
            | some e => rfl
            | none =>
              have hdec := growAndRead_bufOffset_lt hgr hc.1
              exact ih _ hdec _ _ _ _ _ _ _ (by omega) (by omega)
        · rw [if_neg heq, if_neg heq]
    · rw [rsLoop.eq_def]
      conv_rhs => rw [rsLoop.eq_def]
      rw [if_neg hc, if_neg hc]

/-- A pattern string of the source, consumed through its compilation
result: `compiled = none` models a string `regexp.Compile` rejects with a
parse error, `compiled = some re` a string compiling to `re`. -/
structure PatternSrc where
  compiled : Option Regexp

/-- Embeds the `SearchCriteria` struct (source lines 55-89). `none` for
`leStartPattern` / `leTimeFormat` models the empty string, `none` for
`regexps` models a `nil` slice. -/
structure SearchCriteria where
  regexps : Option (List PatternSrc)
  fromTime : Time
  untilTime : Time
  leStartPattern : Option PatternSrc
  leTimeFormat : Option TimeFormat

/-- Embeds the content-pattern compilation loop of `ReverseSearch` (source
lines 370-385): `none` when some pattern fails to compile. -/
def compileRegexps : List PatternSrc → Option (List Regexp)
  | [] => some []
  | p :: ps =>
    match p.compiled with
    | none => none
    | some re => (compileRegexps ps).map (fun rs => re :: rs)

/-- The compiled content patterns of a criteria value: a Go `nil` slice
compiles to no patterns, otherwise every pattern must compile (source
lines 370-385). -/
def compileCriteriaRegexps (searchCriteria : SearchCriteria) :
    Option (List Regexp) :=
  match searchCriteria.regexps with
  | none => some []
  | some ps => compileRegexps ps

/-- The logical file size used by the search: the source strips one
trailing line terminator (`\r\n` or `\n`) from the stat'ed size before
scanning, so it is never counted as part of the last log entry (source
lines 404-427). -/
def strippedFileSize (f : List Byte) : Nat :=
  let fileSize0 := f.length
  if 2 ≤ fileSize0 then
    if f.getD (fileSize0 - 2) 0 == 13 && f.getD (fileSize0 - 1) 0 == 10 then
      fileSize0 - 2
    else if f.getD (fileSize0 - 1) 0 == 10 then fileSize0 - 1
    else fileSize0
  else if fileSize0 == 1 then
    if f.getD 0 0 == 10 then 0 else fileSize0
  else fileSize0

/-- Embeds `ReverseSearch` (source lines 338-556). The file is `none` when
`os.Open` fails, otherwise the file's bytes. The nil-output-handler default
(print to stdout) and a caller handler are observed identically, through
the returned list of dispatched entries. Returns
`(exitStatus, err, dispatched)`. -/
def ReverseSearch (file : Option (List Byte))
    (searchCriteria : SearchCriteria) (startBufLen maxBufLen : Nat) :
    Int × Option RSError × List (List Byte) :=
  if (!searchCriteria.fromTime.isZero || !searchCriteria.untilTime.isZero) &&
      searchCriteria.leTimeFormat.isNone then
    (-1, some .noLeTimeFormat, [])
  else if searchCriteria.leStartPattern.isNone then
    (-1, some .noLeStartPattern, [])
  else if (!searchCriteria.fromTime.isZero &&
        !searchCriteria.untilTime.isZero) &&
      (searchCriteria.fromTime.after searchCriteria.untilTime ||
        searchCriteria.untilTime.equal searchCriteria.fromTime) then
    (-1, some .fromTimeAfterUntilTime, [])
  else
    match file with
    | none => (-1, some .ioError, [])
    | some f =>
      match compileCriteriaRegexps searchCriteria with
      | none => (-1, some .badRegexps, [])
      | some regexps =>
        match searchCriteria.leStartPattern.bind PatternSrc.compiled with
        | none => (-1, some .badLeStartPattern, [])
        | some leStartRegexp =>
          let fileSize := strippedFileSize f
          if fileSize < 1 then (1, none, [])
          else
            let leTimeFormat := searchCriteria.leTimeFormat.getD
              (TimeFormat.mk fun _ => Time.mk none)
            let bufLen := if fileSize < startBufLen then fileSize else startBufLen
            rsLoop f leStartRegexp leTimeFormat searchCriteria.fromTime
              searchCriteria.untilTime regexps maxBufLen fileSize fileSize
              (List.replicate bufLen 0) fileSize 0 0 false []

/-! ## Concrete instruments

Concrete files, patterns and formats used to instantiate the theorems:
a realisation of the opaque matching/parsing capabilities consistent with
the Go engine's behaviour on the concrete inputs of the spec's scenarios. -/

/-- Bytes of a string literal. -/
def strBytes (s : String) : List Byte := s.data.map Char.toNat

/-- `FindSubmatch` of the anchored pattern `^<([^>]*)>`: a line starting
with '<' and containing '>' matches; the full match runs to the first '>',
the single capture group is the bracketed text. -/
def angleFind (line : List Byte) : Option (List (List Byte)) :=
  match line with
  | 60 :: rest =>
    let inner := rest.takeWhile (fun c => c ≠ 62)
    if rest.drop inner.length = [] then none
    else some [60 :: (inner ++ [62]), inner]
  | _ => none

/-- The compiled start pattern of the spec's concrete scenario. -/
def angleRe : Regexp := Regexp.mk angleFind

/-- `FindSubmatch` of a pattern matching a line starting with 'X' followed
by a digit, capturing the digit. -/
def digitFind (line : List Byte) : Option (List (List Byte)) :=
  match line with
  | 88 :: d :: _ => if 48 ≤ d ∧ d ≤ 57 then some [[88, d], [d]] else none
  | _ => none

/-- The compiled `X<digit>` start pattern. -/
def digitRe : Regexp := Regexp.mk digitFind

/-- A time format under which the digit `'1'`..`'9'` parses to the instant
1..9 and everything else fails (returns the zero `Time`). -/
def digitFmt : TimeFormat := TimeFormat.mk fun b =>
  match b with
  | [d] => if 49 ≤ d ∧ d ≤ 57 then Time.mk (some (d - 48)) else Time.mk none
  | _ => Time.mk none

/-- `FindSubmatch` of a pattern with no capturing group matching any line
starting with 'X'. -/
def noCapFind (line : List Byte) : Option (List (List Byte)) :=
  match line with
  | 88 :: _ => some [[88]]
  | _ => none

/-- The compiled no-capture `X` pattern. -/
def noCapRe : Regexp := Regexp.mk noCapFind

/-- The first timestamp of the spec's concrete scenario. -/
def ts1 : List Byte := strBytes "Jun 17, 2010 11:02:52 PM IST"

/-- The second timestamp of the spec's concrete scenario. -/
def ts2 : List Byte := strBytes "Jun 18, 2010 2:02:02 AM IST"

/-- The Go layout `Jan 2, 2006 3:04:05 PM MST` restricted to the two
timestamps of the concrete scenario, ordered as the real instants are
(`ts1` is `Jun 17, 2010 11:02:52 PM IST`, `ts2` the later
`Jun 18, 2010 2:02:02 AM IST`). -/
def scenarioFmt : TimeFormat := TimeFormat.mk fun b =>
  if b = ts1 then Time.mk (some 10)
  else if b = ts2 then Time.mk (some 30)
  else Time.mk none

/-- The file of the spec's concrete scenario. -/
def scenarioFile : List Byte :=
  strBytes "<Jun 17, 2010 11:02:52 PM IST> A\n<Jun 18, 2010 2:02:02 AM IST> B\n"

/-- The search criteria of the spec's concrete scenario:
`FromTime = Jun 17, 2010 11:30:00 PM IST`, an instant strictly between
`ts1` and `ts2` (modelled as 20), no content patterns, no upper bound. -/
def scenarioCriteria : SearchCriteria :=
  SearchCriteria.mk none (Time.mk (some 20)) (Time.mk none)
    (some (PatternSrc.mk (some angleRe))) (some scenarioFmt)

/-- A minimal criteria value with the `X<digit>` pattern and no bounds. -/
def plainCriteria : SearchCriteria :=
  SearchCriteria.mk none (Time.mk none) (Time.mk none)
    (some (PatternSrc.mk (some digitRe))) (some digitFmt)

/-! ## C7: the window grow operation -/

/-- C7, counterexample. The claim states that a successful `increaseBufLen`
always yields a new length equal to the old length doubled and capped at
`MaxBufLen`. On the empty buffer (with `MaxBufLen = 5`) the operation
succeeds with new length 1, while doubling-and-capping predicts 0: the
sanity case of source lines 104-105 contradicts the claim. -/
theorem claim_C7_counterexample :
    increaseBufLen 5 [] = .ok (1, [0]) ∧
      ¬ ((1 : Nat) = min (List.length ([] : List Byte) * 2) 5) := by
  constructor
  · rfl
  · decide

/-- C7, amended: `increaseBufLen` fails with the maximum-buffer-length
error exactly when the buffer length is ≥ `MaxBufLen`; otherwise it
succeeds, the new length is the old length doubled capped at `MaxBufLen`
for a nonempty buffer (and 1 for the empty buffer, the sanity case), the
old bytes sit in original order in the rightmost positions, and the
returned count is the number of new left-hand bytes. -/
theorem claim_C7_increaseBufLen (maxBufLen : Nat) (buf : List Byte) :
    (increaseBufLen maxBufLen buf = .error .maxBufLenReached ↔
      maxBufLen ≤ buf.length)
    ∧ (buf.length < maxBufLen →
        ∃ nAdded newBuf, increaseBufLen maxBufLen buf = .ok (nAdded, newBuf))
    ∧ (∀ nAdded newBuf,
        increaseBufLen maxBufLen buf = .ok (nAdded, newBuf) →
          (buf.length ≠ 0 → newBuf.length = min (buf.length * 2) maxBufLen)
          ∧ (buf.length = 0 → newBuf.length = 1)
          ∧ newBuf.drop nAdded = buf
          ∧ nAdded = newBuf.length - buf.length) := by
  refine ⟨?_, ?_, ?_⟩
  · constructor
    · intro h
      unfold increaseBufLen at h
      split at h
      · assumption
      · exact absurd h (by simp)
    · intro h
      unfold increaseBufLen
      rw [if_pos h]
  · intro h
    unfold increaseBufLen
    rw [if_neg (by omega)]
    exact ⟨_, _, rfl⟩
  · intro nAdded newBuf h
    unfold increaseBufLen at h
    split at h
    · exact absurd h (by simp)
    · rename_i hlt
      simp only [Except.ok.injEq, Prod.mk.injEq] at h
      rcases h with ⟨h1, h2⟩
      subst h1
      subst h2
      refine ⟨?_, ?_, ?_, ?_⟩
      · intro h0
        simp only [List.length_append, List.length_replicate, beq_iff_eq,
          if_neg h0]
        omega
      · intro h0
        simp [h0]
      · simp
      · simp only [List.length_append, List.length_replicate]
        omega

/-- C7, witness: the amended theorem applied to a concrete buffer. -/
theorem claim_C7_witness :
    (∃ nAdded newBuf, increaseBufLen 10 [5, 6] = .ok (nAdded, newBuf)) ∧
      List.drop 2 [0, 0, 5, 6] = ([5, 6] : List Byte) :=
  ⟨(claim_C7_increaseBufLen 10 [5, 6]).2.1 (by decide),
    ((claim_C7_increaseBufLen 10 [5, 6]).2.2 2 [0, 0, 5, 6] (by rfl)).2.2.1⟩

/-! ## Unfolding lemmas for `processLine` -/

/-- `processLine` on a non-matching line. -/
theorem processLine_none {line : List Byte} {re : Regexp} {fmt : TimeFormat}
    {fromTime untilTime : Time} (hm : re.findSubmatch line = none) :
    processLine line re fmt fromTime untilTime = (false, false, false, none) := by
  simp [processLine, hm]

/-- `processLine` on a matching line with no time bound set. -/
theorem processLine_noBounds {line : List Byte} {re : Regexp}
    {fmt : TimeFormat} {fromTime untilTime : Time} {ms : List (List Byte)}
    (hm : re.findSubmatch line = some ms) (hf : fromTime.isZero = true)
    (hu : untilTime.isZero = true) :
    processLine line re fmt fromTime untilTime = (true, true, true, none) := by
  simp [processLine, hm, hf, hu]

/-- `processLine` on a matching line with a time bound set. -/
theorem processLine_bounds {line : List Byte} {re : Regexp} {fmt : TimeFormat}
    {fromTime untilTime : Time} {ms : List (List Byte)}
    (hm : re.findSubmatch line = some ms)
    (hz : (fromTime.isZero && untilTime.isZero) = false) :
    processLine line re fmt fromTime untilTime =
      if ms.length = 0 then (true, false, false, some .matchesEmpty)
      else if ms.length < 2 then
        (true, false, false, some .leStartPatternBadlyFormedNoGroup)
      else if 2 < ms.length then
        (true, false, false, some .leStartPatternBadlyFormedExtraGroups)
      else if (fmt.parse (ms.getD 1 [])).isZero then
        (true, false, false, some .leTimeFormatMismatch)
      else
        (true,
          (if fromTime.isZero then true
            else fromTime.before (fmt.parse (ms.getD 1 [])) ||
              fromTime.equal (fmt.parse (ms.getD 1 []))),
          (if untilTime.isZero then true
            else untilTime.after (fmt.parse (ms.getD 1 []))), none) := by
  simp only [processLine, hm, hz, Bool.false_eq_true, if_false, beq_iff_eq]

/-! ## C8: the badly-formed start-pattern error -/

/-- Recognises the two `LeStartPatternBadlyFormed` errors of the source
(lines 171 and 174, both sharing the `LeStartPatternBadlyFormed` prefix). -/
def isBadlyFormedStartPatternErr : Option RSError → Bool
  | some .leStartPatternBadlyFormedNoGroup => true
  | some .leStartPatternBadlyFormedExtraGroups => true
  | _ => false

/-- C8: `processLine` returns the badly-formed start-pattern error iff the
line matches the entry-start pattern, at least one time bound is set, and
the match's capture-group count (`len(matches) - 1`) differs from one; and
a matching line with no time bound set yields an entry start satisfying
both constraints trivially, with no error, whatever the group count. The
hypothesis `hwf` is the Go `regexp` contract that a non-nil `FindSubmatch`
result contains at least the full match (source line 168 is a sanity check
for this). -/
theorem claim_C8_malformed_start_pattern (line : List Byte) (re : Regexp)
    (fmt : TimeFormat) (fromTime untilTime : Time)
    (hwf : ∀ ms, re.findSubmatch line = some ms → ms ≠ []) :
    (isBadlyFormedStartPatternErr
        (processLine line re fmt fromTime untilTime).2.2.2 = true ↔
      ∃ ms, re.findSubmatch line = some ms ∧
        (fromTime.isZero = false ∨ untilTime.isZero = false) ∧
        ms.length - 1 ≠ 1)
    ∧ ((re.findSubmatch line).isSome = true → fromTime.isZero = true →
        untilTime.isZero = true →
        processLine line re fmt fromTime untilTime = (true, true, true, none)) := by
  constructor
  · cases hm : re.findSubmatch line with
    | none =>
      rw [processLine_none hm]
      simp [isBadlyFormedStartPatternErr, hm]
    | some ms =>
      have hne : ms ≠ [] := hwf ms hm
      have hlen : 1 ≤ ms.length := by
        rcases ms with - | ⟨a, as⟩
        · exact absurd rfl hne
        · simp
      by_cases hz : (fromTime.isZero && untilTime.isZero) = true
      · rw [processLine_noBounds hm (Bool.and_eq_true_iff.mp hz).1
          (Bool.and_eq_true_iff.mp hz).2]
        constructor
        · intro h
          simp [isBadlyFormedStartPatternErr] at h
        · rintro ⟨ms', hms', hz' | hz', -⟩
          · exact absurd (Bool.and_eq_true_iff.mp hz).1 (by simp [hz'])
          · exact absurd (Bool.and_eq_true_iff.mp hz).2 (by simp [hz'])
      · have hz0 : (fromTime.isZero && untilTime.isZero) = false :=
          Bool.eq_false_iff.mpr hz
        have hz' : fromTime.isZero = false ∨ untilTime.isZero = false := by
          rcases Bool.and_eq_false_iff.mp hz0 with h' | h'
          · exact Or.inl h'
          · exact Or.inr h'
        rw [processLine_bounds hm hz0]
        rw [if_neg (by omega)]
        by_cases h2 : ms.length = 2
        · rw [if_neg (by omega), if_neg (by omega)]
          constructor
          · intro h
            split at h <;> simp [isBadlyFormedStartPatternErr] at h
          · rintro ⟨ms', hms', -, hcount⟩
            injection hms' with hms'
            subst hms'
            omega
        · constructor
          · intro h
            exact ⟨ms, rfl, hz', by omega⟩
          · intro h
            rcases Nat.lt_or_ge ms.length 2 with hc | hc
            · rw [if_pos hc]
              simp [isBadlyFormedStartPatternErr]
            · rw [if_neg (by omega), if_pos (by omega)]
              simp [isBadlyFormedStartPatternErr]
  · intro hsome hf hu
    rcases Option.isSome_iff_exists.mp hsome with ⟨ms, hm⟩
    exact processLine_noBounds hm hf hu

/-- C8, witness: the theorem applied to a concrete line and the concrete
no-capture pattern, in both directions. -/
theorem claim_C8_witness :
    isBadlyFormedStartPatternErr
        (processLine [88, 97] noCapRe digitFmt (Time.mk (some 1))
          (Time.mk none)).2.2.2 = true ∧
      processLine [88, 97] noCapRe digitFmt (Time.mk none) (Time.mk none) =
        (true, true, true, none) := by
  constructor
  · exact (claim_C8_malformed_start_pattern [88, 97] noCapRe digitFmt
      (Time.mk (some 1)) (Time.mk none)
      (by intro ms h; rw [show noCapRe.findSubmatch [88, 97] =
        some [[88]] from rfl] at h; injection h with h; subst h; decide)).1.mpr
      ⟨[[88]], rfl, Or.inl rfl, by decide⟩
  · exact (claim_C8_malformed_start_pattern [88, 97] noCapRe digitFmt
      (Time.mk none) (Time.mk none)
      (by intro ms h; rw [show noCapRe.findSubmatch [88, 97] =
        some [[88]] from rfl] at h; injection h with h; subst h; decide)).2
      rfl rfl rfl

/-! ## Dispatch and abort lemmas for the reverse traversal -/

/-- Membership in the accumulator after `processLogEntry`: either an old
element or the entry just considered. -/
theorem processLogEntry_mem {x : List Byte} {rgx : List Regexp}
    {acc : List (List Byte)} {e : List Byte}
    (h : e ∈ processLogEntry x rgx acc) : e ∈ acc ∨ e = x := by
  unfold processLogEntry at h
  split at h
  · rcases List.mem_append.mp h with h' | h'
    · exact Or.inl h'
    · exact Or.inr (by simpa using h')
  · exact Or.inl h

/-- Membership in the conditionally extended accumulator of the dispatch
site of `fleLoop`. -/
theorem mem_dispatch_ite {c : Bool} {x e : List Byte} {rgx : List Regexp}
    {acc : List (List Byte)}
    (h : e ∈ (if c = true then processLogEntry x rgx acc else acc)) :
    e ∈ acc ∨ (c = true ∧ e = x) := by
  cases c with
  | false =>
    simp only [Bool.false_eq_true, if_false] at h
    exact Or.inl h
  | true =>
    simp only [if_pos rfl] at h
    rcases processLogEntry_mem h with h' | h'
    · exact Or.inl h'
    · exact Or.inr ⟨rfl, h'⟩

/-- Every entry `fleLoop` adds to the dispatched list is a span of `buf`
whose first line (a span starting at the same position) passed
`processLine` with both time constraints satisfied and no error. -/
theorem fleLoop_dispatch_mem {buf : List Byte} {re : Regexp}
    {fmt : TimeFormat} {fromT untilT : Time} {rgx : List Regexp}
    (stack : List (Nat × Nat)) :
    ∀ (l n : Nat) (acc : List (List Byte)) (e : List Byte),
      e ∈ (fleLoop buf re fmt fromT untilT rgx stack l n acc).2.2.2.2 →
      e ∈ acc ∨ ∃ s t u, e = subslice buf s u ∧
        processLine (subslice buf s t) re fmt fromT untilT =
          (true, true, true, none) := by
  induction stack with
  | nil =>
    intro l n acc e h
    exact Or.inl (by simpa [fleLoop] using h)
  | cons hd rest ih =>
    rcases hd with ⟨p, w⟩
    intro l n acc e h
    rcases hPL : processLine (subslice buf (p + w) n) re fmt fromT untilT
      with ⟨so, fs, us, err⟩
    cases err with
    | some e' =>
      simp only [fleLoop, hPL] at h
      exact Or.inl h
    | none =>
      cases so with
      | false =>
        simp only [fleLoop, hPL] at h
        exact ih l p acc e h
      | true =>
        cases fs with
        | false =>
          simp only [fleLoop, hPL] at h
          exact Or.inl h
        | true =>
          simp only [fleLoop, hPL] at h
          rcases ih p p _ e h with h' | h'
          · rcases mem_dispatch_ite h' with h'' | ⟨hus, h''⟩
            · exact Or.inl h''
            · subst hus
              exact Or.inr ⟨p + w, n, l, h'', hPL⟩
          · exact Or.inr h'

/-- When `fleLoop` reports an abort, it returns the aborting newline
position as both positions, no error, and the accumulator contains only
what had been dispatched before the aborting line was met. -/
theorem fleLoop_abort_shape {buf : List Byte} {re : Regexp}
    {fmt : TimeFormat} {fromT untilT : Time} {rgx : List Regexp}
    (stack : List (Nat × Nat)) :
    ∀ (l n : Nat) (acc : List (List Byte)) (r1 r2 : Nat)
      (err : Option RSError) (out : List (List Byte)),
      fleLoop buf re fmt fromT untilT rgx stack l n acc =
        (r1, r2, true, err, out) →
      r1 = r2 ∧ err = none ∧ ∃ w t b,
        processLine (subslice buf (r1 + w) t) re fmt fromT untilT =
          (true, false, b, none) := by
  induction stack with
  | nil =>
    intro l n acc r1 r2 err out h
    simp [fleLoop] at h
  | cons hd rest ih =>
    rcases hd with ⟨p, w⟩
    intro l n acc r1 r2 err out h
    rcases hPL : processLine (subslice buf (p + w) n) re fmt fromT untilT
      with ⟨so, fs, us, err'⟩
    cases err' with
    | some e' =>
      simp only [fleLoop, hPL] at h
      simp at h
    | none =>
      cases so with
      | false =>
        simp only [fleLoop, hPL] at h
        exact ih l p acc r1 r2 err out h
      | true =>
        cases fs with
        | false =>
          simp only [fleLoop, hPL, if_true, if_false, Bool.false_eq_true,
            Bool.true_eq_false, Prod.mk.injEq] at h
          rcases h with ⟨h1, h2, -, h4, -⟩
          subst h1
          subst h2
          exact ⟨rfl, h4.symm, w, n, us, hPL⟩
        | true =>
          simp only [fleLoop, hPL] at h
          exact ih p p _ r1 r2 err out h

/-- A `processLine` outcome that allows dispatch, with `fromTime` set,
forces an exactly-one-group match whose captured timestamp parses to an
instant ≥ `fromTime`. -/
theorem processLine_dispatch_fromTime {line : List Byte} {re : Regexp}
    {fmt : TimeFormat} {fromTime untilTime : Time}
    (h : processLine line re fmt fromTime untilTime = (true, true, true, none))
    (hf : fromTime.isZero = false) :
    ∃ ms, re.findSubmatch line = some ms ∧ ms.length = 2 ∧
      (fmt.parse (ms.getD 1 [])).isZero = false ∧
      fromTime.val ≤ (fmt.parse (ms.getD 1 [])).val := by
  cases hm : re.findSubmatch line with
  | none =>
    rw [processLine_none hm] at h
    simp at h
  | some ms =>
    rw [processLine_bounds hm (by simp [hf])] at h
    refine ⟨ms, rfl, ?_⟩
    split at h
    · simp at h
    · split at h
      · simp at h
      · split at h
        · simp at h
        · split at h
          · simp at h
          · rename_i h0 h1 h2 h3
            simp only [Prod.mk.injEq] at h
            rcases h with ⟨-, hfs, -, -⟩
            rw [if_neg (by simp [hf])] at hfs
            refine ⟨by omega, Bool.eq_false_iff.mpr h3, ?_⟩
            rcases Bool.or_eq_true_iff.mp hfs with h' | h'
            · simp only [Time.before, decide_eq_true_eq] at h'
              omega
            · simp only [Time.equal, beq_iff_eq] at h'
              omega

/-- A `processLine` outcome that allows dispatch, with `untilTime` set,
forces an exactly-one-group match whose captured timestamp parses to an
instant < `untilTime`. -/
theorem processLine_dispatch_untilTime {line : List Byte} {re : Regexp}
    {fmt : TimeFormat} {fromTime untilTime : Time}
    (h : processLine line re fmt fromTime untilTime = (true, true, true, none))
    (hu : untilTime.isZero = false) :
    ∃ ms, re.findSubmatch line = some ms ∧ ms.length = 2 ∧
      (fmt.parse (ms.getD 1 [])).isZero = false ∧
      (fmt.parse (ms.getD 1 [])).val < untilTime.val := by
  cases hm : re.findSubmatch line with
  | none =>
    rw [processLine_none hm] at h
    simp at h
  | some ms =>
    rw [processLine_bounds hm (by simp [hu])] at h
    refine ⟨ms, rfl, ?_⟩
    split at h
    · simp at h
    · split at h
      · simp at h
      · split at h
        · simp at h
        · split at h
          · simp at h
          · rename_i h0 h1 h2 h3
            simp only [Prod.mk.injEq] at h
            rcases h with ⟨-, -, hus, -⟩
            rw [if_neg (by simp [hu])] at hus
            simp only [Time.after, decide_eq_true_eq] at hus
            exact ⟨by omega, Bool.eq_false_iff.mpr h3, hus⟩

/-- Every entry dispatched by `findLogEntries` is a span of `buf` whose
first line passed `processLine` with both constraints satisfied. -/
theorem findLogEntries_dispatch_mem {buf : List Byte} {bOffset : Int}
    {scanToPos lastNlPos : Nat} {re : Regexp} {fmt : TimeFormat}
    {fromT untilT : Time} {rgx : List Regexp} {e : List Byte}
    (h : e ∈ (findLogEntries buf bOffset scanToPos lastNlPos re fmt fromT
      untilT rgx).2.2.2.2) :
    ∃ s t u, e = subslice buf s u ∧
      processLine (subslice buf s t) re fmt fromT untilT =
        (true, true, true, none) := by
  unfold findLogEntries at h
  split at h
  · simp at h
  · rcases fleLoop_dispatch_mem _ _ _ _ _ h with h' | h'
    · simp at h'
    · exact h'

/-- When `findLogEntries` reports an abort it returns the aborting
position as both positions and no error, and the line at that position is
an entry start failing `fromTime`. -/
theorem findLogEntries_abort_shape {buf : List Byte} {bOffset : Int}
    {scanToPos lastNlPos : Nat} {re : Regexp} {fmt : TimeFormat}
    {fromT untilT : Time} {rgx : List Regexp} {r1 r2 : Nat}
    {err : Option RSError} {out : List (List Byte)}
    (h : findLogEntries buf bOffset scanToPos lastNlPos re fmt fromT untilT
      rgx = (r1, r2, true, err, out)) :
    r1 = r2 ∧ err = none ∧ ∃ w t b,
      processLine (subslice buf (r1 + w) t) re fmt fromT untilT =
        (true, false, b, none) := by
  unfold findLogEntries at h
  split at h
  · simp at h
  · exact fleLoop_abort_shape _ _ _ _ _ _ _ _ h

/-- The driver loop on a state whose abort flag is set terminates at once
as a normal success, dispatching nothing further. -/
theorem rsLoop_abort_exit (file : List Byte) (re : Regexp)
    (fmt : TimeFormat) (fromT untilT : Time) (rgx : List Regexp)
    (maxBufLen fileSize fuel : Nat) (buf : List Byte)
    (bufOffset lastLePos lastNlPos : Nat) (dispatched : List (List Byte)) :
    rsLoop file re fmt fromT untilT rgx maxBufLen fileSize fuel buf
      bufOffset lastLePos lastNlPos true dispatched =
      (0, none, dispatched) := by
  rw [rsLoop.eq_def]
  rw [if_neg (by simp)]
  rw [rsLoopPost, if_neg (by simp)]

/-! ## C1: lower time bound and the abort mechanism -/

/-- C1: with `FromTime` set, (1) every entry dispatched by a
`findLogEntries` scan is a span of the window whose first line (the span
starting at the same position, ending at the then-current newline) matched
the start pattern with exactly one capture group parsing to a timestamp
≥ `FromTime`; (2) when the reverse traversal meets an entry-start line
failing `FromTime`, it returns immediately with abort set, that entry's
newline position as both returned positions, no error, and no further
dispatch (the accumulator is returned unchanged, so neither this entry nor
any earlier content is dispatched); (3) whenever `findLogEntries` reports
an abort it returns one position as its whole answer with no error; and
(4) the driver loop on an aborted state terminates as a normal success
(status 0, no error). -/
theorem claim_C1_fromTime_lower_bound_abort (buf : List Byte)
    (bOffset : Int) (scanToPos lastNlPos : Nat) (re : Regexp)
    (fmt : TimeFormat) (fromT untilT : Time) (rgx : List Regexp)
    (hf : fromT.isZero = false) :
    (∀ e ∈ (findLogEntries buf bOffset scanToPos lastNlPos re fmt fromT
        untilT rgx).2.2.2.2,
      ∃ s t u ms, e = subslice buf s u ∧
        re.findSubmatch (subslice buf s t) = some ms ∧ ms.length = 2 ∧
        (fmt.parse (ms.getD 1 [])).isZero = false ∧
        fromT.val ≤ (fmt.parse (ms.getD 1 [])).val)
    ∧ (∀ (nlPos nlSize : Nat) (rest : List (Nat × Nat)) (l n : Nat)
        (acc : List (List Byte)) (b : Bool),
        processLine (subslice buf (nlPos + nlSize) n) re fmt fromT untilT =
          (true, false, b, none) →
        fleLoop buf re fmt fromT untilT rgx ((nlPos, nlSize) :: rest) l n
          acc = (nlPos, nlPos, true, none, acc))
    ∧ (∀ (r1 r2 : Nat) (err : Option RSError) (out : List (List Byte)),
        findLogEntries buf bOffset scanToPos lastNlPos re fmt fromT untilT
          rgx = (r1, r2, true, err, out) → r1 = r2 ∧ err = none)
    ∧ (∀ (file : List Byte) (maxBufLen fileSize fuel : Nat)
        (buf2 : List Byte) (bufOffset lastLePos lastNlPos2 : Nat)
        (dispatched : List (List Byte)),
        rsLoop file re fmt fromT untilT rgx maxBufLen fileSize fuel buf2
          bufOffset lastLePos lastNlPos2 true dispatched =
          (0, none, dispatched)) := by
  refine ⟨?_, ?_, ?_, ?_⟩
  · intro e he
    rcases findLogEntries_dispatch_mem he with ⟨s, t, u, he1, he2⟩
    rcases processLine_dispatch_fromTime he2 hf with ⟨ms, hm, h2, h3, h4⟩
    exact ⟨s, t, u, ms, he1, hm, h2, h3, h4⟩
  · intro nlPos nlSize rest l n acc b h
    simp [fleLoop, h]
  · intro r1 r2 err out h
    rcases findLogEntries_abort_shape h with ⟨h1, h2, -⟩
    exact ⟨h1, h2⟩
  · intro file maxBufLen fileSize fuel buf2 bufOffset lastLePos lastNlPos2
      dispatched
    exact rsLoop_abort_exit file re fmt fromT untilT rgx maxBufLen fileSize
      fuel buf2 bufOffset lastLePos lastNlPos2 dispatched

/-- C1, witness: the abort step of the theorem applied to the concrete
window `"\nX1 a"` with `FromTime` the instant 2 (the line `X1 a` has
timestamp 1 < 2). -/
theorem claim_C1_witness :
    fleLoop (strBytes "\nX1 a") digitRe digitFmt (Time.mk (some 2))
      (Time.mk none) [] [(0, 1)] 5 5 [] = (0, 0, true, none, []) :=
  (claim_C1_fromTime_lower_bound_abort (strBytes "\nX1 a") 0 0 5 digitRe
    digitFmt (Time.mk (some 2)) (Time.mk none) [] rfl).2.1 0 1 [] 5 5 []
    true (by decide)

/-! ## C3: upper time bound -/

/-- C3: with `UntilTime` set, (1) every entry dispatched by a
`findLogEntries` scan has its first-line timestamp strictly before
`UntilTime`; (2) for an entry-start line with a parsable timestamp, the
upper bound is satisfied exactly when the timestamp is strictly before
`UntilTime`; and (3) an entry-start line failing only the upper bound
never aborts: the traversal records its newline position as the new
earliest entry start (and newline) and continues over the remaining
catalogued newlines, dispatching nothing for that line. -/
theorem claim_C3_untilTime_upper_bound (buf : List Byte) (bOffset : Int)
    (scanToPos lastNlPos : Nat) (re : Regexp) (fmt : TimeFormat)
    (fromT untilT : Time) (rgx : List Regexp)
    (hu : untilT.isZero = false) :
    (∀ e ∈ (findLogEntries buf bOffset scanToPos lastNlPos re fmt fromT
        untilT rgx).2.2.2.2,
      ∃ s t u ms, e = subslice buf s u ∧
        re.findSubmatch (subslice buf s t) = some ms ∧ ms.length = 2 ∧
        (fmt.parse (ms.getD 1 [])).isZero = false ∧
        (fmt.parse (ms.getD 1 [])).val < untilT.val)
    ∧ (∀ (line : List Byte) (ms : List (List Byte)),
        re.findSubmatch line = some ms → ms.length = 2 →
        (fmt.parse (ms.getD 1 [])).isZero = false →
        ((processLine line re fmt fromT untilT).2.2.1 = true ↔
          (fmt.parse (ms.getD 1 [])).val < untilT.val))
    ∧ (∀ (nlPos nlSize : Nat) (rest : List (Nat × Nat)) (l n : Nat)
        (acc : List (List Byte)),
        processLine (subslice buf (nlPos + nlSize) n) re fmt fromT untilT =
          (true, true, false, none) →
        fleLoop buf re fmt fromT untilT rgx ((nlPos, nlSize) :: rest) l n
          acc = fleLoop buf re fmt fromT untilT rgx rest nlPos nlPos acc) := by
  refine ⟨?_, ?_, ?_⟩
  · intro e he
    rcases findLogEntries_dispatch_mem he with ⟨s, t, u, he1, he2⟩
    rcases processLine_dispatch_untilTime he2 hu with ⟨ms, hm, h2, h3, h4⟩
    exact ⟨s, t, u, ms, he1, hm, h2, h3, h4⟩
  · intro line ms hm h2 h3
    rw [processLine_bounds hm (by simp [hu])]
    rw [if_neg (by omega), if_neg (by omega), if_neg (by omega),
      if_neg (by simpa using h3)]
    simp [hu, Time.after]
  · intro nlPos nlSize rest l n acc h
    simp [fleLoop, h]

/-- C3, witness: the continue step of the theorem applied to the concrete
window `"\nX3 a"` with `UntilTime` the instant 2 (the line `X3 a` has
timestamp 3, failing only the upper bound). -/
theorem claim_C3_witness :
    fleLoop (strBytes "\nX3 a") digitRe digitFmt (Time.mk none)
      (Time.mk (some 2)) [] [(0, 1)] 5 5 [] =
      fleLoop (strBytes "\nX3 a") digitRe digitFmt (Time.mk none)
        (Time.mk (some 2)) [] [] 0 0 [] :=
  (claim_C3_untilTime_upper_bound (strBytes "\nX3 a") 0 0 5 digitRe
    digitFmt (Time.mk none) (Time.mk (some 2)) [] rfl).2.2 0 1 [] 5 5 []
    (by decide)

/-! ## C6: the shift-and-refill step of the driver -/

/-- The length of the bytes delivered by `readAt`. -/
theorem readAt_length (file : List Byte) (off n : Nat) :
    (readAt file off n).length = min n (file.length - off) := by
  simp [readAt]

/-- Modelled from the claim's words, for comparison with the source's
step: the new window is obtained by keeping the bytes from position
`lastLePos` onward at the right end of the buffer and reading
`windowLength - lastLePos` bytes at the decremented file offset into the
freed left portion. -/
def shiftClaimC6 (file buf : List Byte) (lastLePos : Nat)
    (bufOffset : Nat) : List Byte :=
  readAt file (bufOffset - (buf.length - lastLePos))
    (buf.length - lastLePos) ++ buf.drop lastLePos

/-- C6, counterexample. With window `[1, 2, 3]`, `lastLePos = 1`, file
`[7, 8, 9]` and offset 2, the source's step yields the window `[7, 8, 1]`
(it preserves the bytes *before* `lastLePos`, here `[1]`), while the
claim's words (preserve the bytes from `lastLePos` onward, here `[2, 3]`)
predict `[7, 8, 2, 3]`. -/
theorem claim_C6_counterexample :
    (shiftAndRead [7, 8, 9] [1, 2, 3] 1 0 2).buf = [7, 8, 1] ∧
      shiftClaimC6 [7, 8, 9] [1, 2, 3] 1 2 = [7, 8, 2, 3] ∧
      ([7, 8, 1] : List Byte) ≠ [7, 8, 2, 3] := by
  refine ⟨rfl, rfl, by decide⟩

/-- C6, amended: on a driver iteration taking the shift branch
(`lastLePos < windowLength`, positive remaining offset, reads inside the
file), the bytes *before* `lastLePos` (`buf[0:lastLePos]`) are preserved,
moved in unchanged order to the right end of the unchanged-size buffer,
and exactly `windowLength - lastLePos` bytes are read at the decremented
file offset into the freed left portion; when the decremented offset would
go below zero it is clamped to zero, the window is truncated on the left,
and the read shrinks to `bufOffset` bytes. -/
theorem claim_C6_shift_and_read (file buf : List Byte)
    (lastLePos lastNlPos bufOffset : Nat)
    (hlt : lastLePos < buf.length) (hpos : 1 ≤ bufOffset)
    (hfile : bufOffset ≤ file.length) :
    (buf.length - lastLePos ≤ bufOffset →
      shiftAndRead file buf lastLePos lastNlPos bufOffset =
        ShiftRead.mk
          (readAt file (bufOffset - (buf.length - lastLePos))
              (buf.length - lastLePos) ++ buf.take lastLePos)
          (buf.length - lastLePos - 1)
          (lastNlPos + (buf.length - lastLePos))
          (bufOffset - (buf.length - lastLePos)))
    ∧ (buf.length - lastLePos ≤ bufOffset →
        (shiftAndRead file buf lastLePos lastNlPos bufOffset).buf.length =
          buf.length)
    ∧ (bufOffset < buf.length - lastLePos →
      shiftAndRead file buf lastLePos lastNlPos bufOffset =
        ShiftRead.mk (readAt file 0 bufOffset ++ buf.take lastLePos)
          (bufOffset - 1) (lastNlPos + bufOffset) 0)
    ∧ (bufOffset < buf.length - lastLePos →
        (shiftAndRead file buf lastLePos lastNlPos bufOffset).buf.length =
          lastLePos + bufOffset) := by
  have hsh : (buf.take (buf.length - lastLePos) ++
      buf.take lastLePos).drop (buf.length - lastLePos) =
      buf.take lastLePos := by
    rw [List.drop_append_of_le_length (by simp)]
    simp [List.drop_take]
  have harith : buf.length - (buf.length - lastLePos - bufOffset) -
      lastLePos = bufOffset ∨ buf.length - lastLePos ≤ bufOffset := by
    omega
  refine ⟨?_, ?_, ?_, ?_⟩
  · intro hge
    unfold shiftAndRead readInto
    rw [if_neg (by omega)]
    have hr : (readAt file (bufOffset - (buf.length - lastLePos))
        (buf.length - lastLePos)).length = buf.length - lastLePos := by
      rw [readAt_length]
      omega
    dsimp only
    rw [hr, hsh]
  · intro hge
    unfold shiftAndRead readInto
    rw [if_neg (by omega)]
    have hr : (readAt file (bufOffset - (buf.length - lastLePos))
        (buf.length - lastLePos)).length = buf.length - lastLePos := by
      rw [readAt_length]
      omega
    dsimp only
    rw [hr, hsh]
    simp only [List.length_append, List.length_take]
    rw [readAt_length]
    omega
  · intro hless
    unfold shiftAndRead readInto
    rw [if_pos hless]
    dsimp only
    have ha : buf.length - (buf.length - lastLePos - bufOffset) -
        lastLePos = bufOffset := by omega
    rw [ha]
    have hr : (readAt file 0 bufOffset).length = bufOffset := by
      rw [readAt_length]
      omega
    rw [hr]
    have hdd : ((buf.take (buf.length - lastLePos) ++
        buf.take lastLePos).drop
          (buf.length - lastLePos - bufOffset)).drop bufOffset =
        buf.take lastLePos := by
      rw [List.drop_drop]
      have he : buf.length - lastLePos - bufOffset + bufOffset =
          buf.length - lastLePos := by omega
      rw [he]
      exact hsh
    rw [hdd]
    have h1 : buf.length - lastLePos - 1 -
        (buf.length - lastLePos - bufOffset) = bufOffset - 1 := by omega
    have h2 : lastNlPos + (buf.length - lastLePos) -
        (buf.length - lastLePos - bufOffset) = lastNlPos + bufOffset := by
      omega
    rw [h1, h2]
  · intro hless
    unfold shiftAndRead readInto
    rw [if_pos hless]
    dsimp only
    have ha : buf.length - (buf.length - lastLePos - bufOffset) -
        lastLePos = bufOffset := by omega
    rw [ha]
    have hr : (readAt file 0 bufOffset).length = bufOffset := by
      rw [readAt_length]
      omega
    rw [hr]
    simp only [List.length_append, List.length_drop, List.length_take]
    rw [readAt_length]
    omega

/-- C6, witness: the amended theorem applied to the counterexample's
concrete window. -/
theorem claim_C6_witness :
    shiftAndRead [7, 8, 9] [1, 2, 3] 1 0 2 = ShiftRead.mk [7, 8, 1] 1 2 0 := by
  have h := (claim_C6_shift_and_read [7, 8, 9] [1, 2, 3] 1 0 2 (by decide)
    (by decide) (by decide)).1 (by decide)
  exact h.trans (by decide)

/-! ## C2: the spec's concrete scenario -/

/-- C2: on the two-entry file with `FromTime` strictly between the two
timestamps, `ReverseSearch` dispatches exactly the second entry
`"<Jun 18, 2010 2:02:02 AM IST> B"` and returns status 0 with no error
(the default tunables `StartBufLen = 25000`, `MaxBufLen = 2000000`). -/
theorem claim_C2_concrete_scenario :
    ReverseSearch (some scenarioFile) scenarioCriteria 25000 2000000 =
      (0, none, [strBytes "<Jun 18, 2010 2:02:02 AM IST> B"]) := by
  set_option maxRecDepth 20000 in decide

/-! ## File-prefix congruence of the driver loop

The driver only ever reads file bytes in `[0, bufOffset)` of the current
offset, which decreases from the logical file size: two files agreeing on
that prefix drive the loop identically. -/

/-- `readAt` only depends on the file prefix covering the read. -/
theorem readAt_take_congr {f1 f2 : List Byte} {L : Nat} (off n : Nat)
    (h : f1.take L = f2.take L) (hle : off + n ≤ L) :
    readAt f1 off n = readAt f2 off n := by
  unfold readAt
  have hd : (f1.drop off).take (L - off) = (f2.drop off).take (L - off) := by
    rw [← List.drop_take L off f1, ← List.drop_take L off f2, h]
  calc (f1.drop off).take n
      = ((f1.drop off).take (L - off)).take n := by
        rw [List.take_take, min_eq_left (by omega)]
    _ = ((f2.drop off).take (L - off)).take n := by rw [hd]
    _ = (f2.drop off).take n := by
        rw [List.take_take, min_eq_left (by omega)]

/-- `readInto` only depends on the file prefix covering the read. -/
theorem readInto_take_congr {f1 f2 : List Byte} {L : Nat} (off : Nat)
    (dest : List Byte) (n : Nat) (h : f1.take L = f2.take L)
    (hle : off + n ≤ L) :
    readInto f1 off dest n = readInto f2 off dest n := by
  unfold readInto
  rw [readAt_take_congr off n h hle]

/-- The shift-and-refill step only depends on the file prefix below the
current offset. -/
theorem shiftAndRead_take_congr {f1 f2 : List Byte} {L : Nat}
    (buf : List Byte) (lastLePos lastNlPos bufOffset : Nat)
    (h : f1.take L = f2.take L) (hb : bufOffset ≤ L) :
    shiftAndRead f1 buf lastLePos lastNlPos bufOffset =
      shiftAndRead f2 buf lastLePos lastNlPos bufOffset := by
  unfold shiftAndRead
  dsimp only
  split
  · rename_i hless
    rw [readInto_take_congr 0 _ _ h (by omega)]
  · rename_i hge
    rw [readInto_take_congr (bufOffset - (buf.length - lastLePos)) _ _ h
      (by omega)]

/-- The grow-and-refill step only depends on the file prefix below the
current offset. -/
theorem growAndRead_take_congr {f1 f2 : List Byte} {L : Nat}
    (maxBufLen : Nat) (buf : List Byte) (lastNlPos bufOffset : Nat)
    (h : f1.take L = f2.take L) (hb : bufOffset ≤ L) :
    growAndRead f1 maxBufLen buf lastNlPos bufOffset =
      growAndRead f2 maxBufLen buf lastNlPos bufOffset := by
  unfold growAndRead
  rcases hinc : increaseBufLen maxBufLen buf with - | p
  · rfl
  · rcases p with ⟨nAdded, buf1⟩
    dsimp only
    split
    · rw [readInto_take_congr 0 _ _ h (by omega)]
    · rename_i hge
      rw [readInto_take_congr (bufOffset - nAdded) _ _ h (by omega)]

/-- The driver loop only depends on the file prefix below the current
offset: files agreeing on `[0, L)` with `bufOffset ≤ L` drive it to the
same result. -/
theorem rsLoop_file_take_congr (re : Regexp) (fmt : TimeFormat)
    (fromT untilT : Time) (rgx : List Regexp) (maxBufLen fileSize : Nat) :
    ∀ (bufOffset : Nat) (f1 f2 : List Byte) (L fuel : Nat)
      (buf : List Byte) (lastLePos lastNlPos : Nat) (abort : Bool)
      (dispatched : List (List Byte)),
      bufOffset ≤ L → f1.take L = f2.take L →
      rsLoop f1 re fmt fromT untilT rgx maxBufLen fileSize fuel buf
        bufOffset lastLePos lastNlPos abort dispatched =
      rsLoop f2 re fmt fromT untilT rgx maxBufLen fileSize fuel buf
        bufOffset lastLePos lastNlPos abort dispatched := by
  intro bufOffset
  induction bufOffset using Nat.strong_induction_on with
  | _ bufOffset ih =>
    intro f1 f2 L fuel buf lastLePos lastNlPos abort dispatched hL h
    by_cases hc : 0 < bufOffset ∧ abort = false
    · rcases fuel with - | fuel
      · rw [rsLoop.eq_def]
        conv_rhs => rw [rsLoop.eq_def]
      rw [rsLoop.eq_def]
      conv_rhs => rw [rsLoop.eq_def]
      rw [if_pos hc, if_pos hc]
      dsimp only
      by_cases hlt : lastLePos < buf.length
      · rw [if_pos hlt, if_pos hlt]
        rw [← shiftAndRead_take_congr buf lastLePos lastNlPos bufOffset h hL]
        rcases hfle : findLogEntries
            (shiftAndRead f1 buf lastLePos lastNlPos bufOffset).buf
            (Int.ofNat
              (shiftAndRead f1 buf lastLePos lastNlPos bufOffset).bufOffset)
            (shiftAndRead f1 buf lastLePos lastNlPos bufOffset).scanToPos
            (shiftAndRead f1 buf lastLePos lastNlPos bufOffset).lastNlPos
            re fmt fromT untilT rgx with ⟨l', n', a', err, out⟩
        simp only [hfle]
        cases err with
        | some e => rfl
        | none =>
          have hdec := @shiftAndRead_bufOffset_lt f1 buf lastLePos
            lastNlPos bufOffset hlt hc.1
          exact ih _ hdec _ _ _ _ _ _ _ _ _ (by omega) h
      · rw [if_neg hlt, if_neg hlt]
        by_cases heq : lastLePos = buf.length
        · rw [if_pos heq, if_pos heq]
          rw [← growAndRead_take_congr maxBufLen buf lastNlPos bufOffset h hL]
          rcases hgr : growAndRead f1 maxBufLen buf lastNlPos bufOffset
            with - | gr
          · rfl
          · simp only
            rcases hfle : findLogEntries gr.buf (Int.ofNat gr.bufOffset)
                gr.scanToPos gr.lastNlPos re fmt fromT untilT rgx
              with ⟨l', n', a', err, out⟩
            simp only [hfle]
            cases err with
            | some e => rfl
            | none =>
              have hdec := growAndRead_bufOffset_lt hgr hc.1
              exact ih _ hdec _ _ _ _ _ _ _ _ _ (by omega) h
        · rw [if_neg heq, if_neg heq]
    · rw [rsLoop.eq_def]
      conv_rhs => rw [rsLoop.eq_def]
      rw [if_neg hc, if_neg hc]

/-! ## C9: validation of the search criteria -/

/-- C9, counterexample. The claim states that pattern compilability is
validated with status −1 *before touching (opening or reading) the file*.
With an unopenable file and an uncompilable start pattern, `ReverseSearch`
returns the open error, not the pattern error: the source opens and stats
the file (lines 356-367) before compiling any pattern (lines 370-394). -/
theorem claim_C9_counterexample :
    ReverseSearch none
        (SearchCriteria.mk none (Time.mk none) (Time.mk none)
          (some (PatternSrc.mk none)) none) 25000 2000000 =
      (-1, some .ioError, []) ∧
      RSError.ioError ≠ RSError.badLeStartPattern :=
  ⟨rfl, by decide⟩

/-- C9, amended: `ReverseSearch` checks the `SearchCriteria` invariants —
time format present whenever a bound is set, entry-start pattern present,
and `FromTime` strictly before `UntilTime` when both bounds are set
(equality rejected) — returning status −1 with the corresponding error
before touching the file (the checks fire even when the file cannot be
opened, `file = none`); the compilability of the content patterns and of
the start pattern is validated after opening and stat'ing the file but
before reading any content (status −1 with `BadRegexps` /
`BadLeStartPattern` uniformly in the file's bytes). -/
theorem claim_C9_validation (file : Option (List Byte))
    (sc : SearchCriteria) (startBufLen maxBufLen : Nat) :
    (((!sc.fromTime.isZero || !sc.untilTime.isZero) &&
        sc.leTimeFormat.isNone) = true →
      ReverseSearch file sc startBufLen maxBufLen =
        (-1, some .noLeTimeFormat, []))
    ∧ (((!sc.fromTime.isZero || !sc.untilTime.isZero) &&
          sc.leTimeFormat.isNone) = false →
        sc.leStartPattern.isNone = true →
      ReverseSearch file sc startBufLen maxBufLen =
        (-1, some .noLeStartPattern, []))
    ∧ (((!sc.fromTime.isZero || !sc.untilTime.isZero) &&
          sc.leTimeFormat.isNone) = false →
        sc.leStartPattern.isNone = false →
        ((!sc.fromTime.isZero && !sc.untilTime.isZero) &&
          (sc.fromTime.after sc.untilTime ||
            sc.untilTime.equal sc.fromTime)) = true →
      ReverseSearch file sc startBufLen maxBufLen =
        (-1, some .fromTimeAfterUntilTime, []))
    ∧ (((!sc.fromTime.isZero || !sc.untilTime.isZero) &&
          sc.leTimeFormat.isNone) = false →
        sc.leStartPattern.isNone = false →
        ((!sc.fromTime.isZero && !sc.untilTime.isZero) &&
          (sc.fromTime.after sc.untilTime ||
            sc.untilTime.equal sc.fromTime)) = false →
        file = none →
      ReverseSearch file sc startBufLen maxBufLen = (-1, some .ioError, []))
    ∧ (∀ f : List Byte,
        ((!sc.fromTime.isZero || !sc.untilTime.isZero) &&
          sc.leTimeFormat.isNone) = false →
        sc.leStartPattern.isNone = false →
        ((!sc.fromTime.isZero && !sc.untilTime.isZero) &&
          (sc.fromTime.after sc.untilTime ||
            sc.untilTime.equal sc.fromTime)) = false →
        compileCriteriaRegexps sc = none →
      ReverseSearch (some f) sc startBufLen maxBufLen =
        (-1, some .badRegexps, []))
    ∧ (∀ (f : List Byte) (rs : List Regexp),
        ((!sc.fromTime.isZero || !sc.untilTime.isZero) &&
          sc.leTimeFormat.isNone) = false →
        sc.leStartPattern.isNone = false →
        ((!sc.fromTime.isZero && !sc.untilTime.isZero) &&
          (sc.fromTime.after sc.untilTime ||
            sc.untilTime.equal sc.fromTime)) = false →
        compileCriteriaRegexps sc = some rs →
        sc.leStartPattern.bind PatternSrc.compiled = none →
      ReverseSearch (some f) sc startBufLen maxBufLen =
        (-1, some .badLeStartPattern, [])) := by
  refine ⟨?_, ?_, ?_, ?_, ?_, ?_⟩
  · intro h1
    unfold ReverseSearch
    rw [if_pos h1]
  · intro h1 h2
    unfold ReverseSearch
    rw [if_neg (by simp [h1]), if_pos h2]
  · intro h1 h2 h3
    unfold ReverseSearch
    rw [if_neg (by simp [h1]), if_neg (by simp [h2]), if_pos h3]
  · intro h1 h2 h3 h4
    unfold ReverseSearch
    rw [if_neg (by simp [h1]), if_neg (by simp [h2]), if_neg (by simp [h3]),
      h4]
  · intro f h1 h2 h3 h4
    unfold ReverseSearch
    rw [if_neg (by simp [h1]), if_neg (by simp [h2]), if_neg (by simp [h3])]
    simp only [h4]
  · intro f rs h1 h2 h3 h4 h5
    unfold ReverseSearch
    rw [if_neg (by simp [h1]), if_neg (by simp [h2]), if_neg (by simp [h3])]
    simp only [h4, h5]

/-- C9, witness: the amended theorem applied to concrete criteria — a
lower bound set with no time format (against an unopenable file), and an
uncompilable start pattern (against a concrete file). -/
theorem claim_C9_witness :
    ReverseSearch none
        (SearchCriteria.mk none (Time.mk (some 1)) (Time.mk none)
          (some (PatternSrc.mk (some digitRe))) none) 25000 2000000 =
      (-1, some .noLeTimeFormat, []) ∧
    ReverseSearch (some [88]) (SearchCriteria.mk none (Time.mk none)
          (Time.mk none) (some (PatternSrc.mk none)) none) 25000 2000000 =
      (-1, some .badLeStartPattern, []) :=
  ⟨(claim_C9_validation none
      (SearchCriteria.mk none (Time.mk (some 1)) (Time.mk none)
        (some (PatternSrc.mk (some digitRe))) none) 25000 2000000).1
      (by decide),
   (claim_C9_validation (some [88])
      (SearchCriteria.mk none (Time.mk none) (Time.mk none)
        (some (PatternSrc.mk none)) none) 25000 2000000).2.2.2.2.2 [88] []
      (by decide) (by decide) (by decide) rfl rfl⟩

/-! ## C10: status −1 exactly on error -/

/-- The post-loop checks pair status −1 with an error and status 0 with
no error. -/
theorem rsLoopPost_status (fileSize bufOffset lastLePos : Nat)
    (abort : Bool) (dispatched : List (List Byte)) :
    ((rsLoopPost fileSize bufOffset lastLePos abort dispatched).1 = -1 ↔
      (rsLoopPost fileSize bufOffset lastLePos abort dispatched).2.1 ≠
        none) := by
  unfold rsLoopPost
  split
  · split <;> simp
  · simp

/-- The driver loop returns status −1 exactly when it returns an error. -/
theorem rsLoop_status (file : List Byte) (re : Regexp) (fmt : TimeFormat)
    (fromT untilT : Time) (rgx : List Regexp) (maxBufLen fileSize : Nat) :
    ∀ (fuel : Nat) (buf : List Byte) (bufOffset lastLePos lastNlPos : Nat)
      (abort : Bool) (dispatched : List (List Byte)),
      ((rsLoop file re fmt fromT untilT rgx maxBufLen fileSize fuel buf
          bufOffset lastLePos lastNlPos abort dispatched).1 = -1 ↔
        (rsLoop file re fmt fromT untilT rgx maxBufLen fileSize fuel buf
          bufOffset lastLePos lastNlPos abort dispatched).2.1 ≠ none) := by
  intro fuel
  induction fuel with
  | zero =>
    intro buf bufOffset lastLePos lastNlPos abort dispatched
    rw [rsLoop.eq_def]
    split
    · exact rsLoopPost_status fileSize bufOffset lastLePos abort dispatched
    · exact rsLoopPost_status fileSize bufOffset lastLePos abort dispatched
  | succ fuel ih =>
    intro buf bufOffset lastLePos lastNlPos abort dispatched
    rw [rsLoop.eq_def]
    split
    · dsimp only
      by_cases hlt : lastLePos < buf.length
      · rw [if_pos hlt]
        rcases hfle : findLogEntries
            (shiftAndRead file buf lastLePos lastNlPos bufOffset).buf
            (Int.ofNat
              (shiftAndRead file buf lastLePos lastNlPos bufOffset).bufOffset)
            (shiftAndRead file buf lastLePos lastNlPos bufOffset).scanToPos
            (shiftAndRead file buf lastLePos lastNlPos bufOffset).lastNlPos
            re fmt fromT untilT rgx with ⟨l', n', a', err, out⟩
        simp only [hfle]
        cases err with
        | some e => simp
        | none => exact ih _ _ _ _ _ _
      · rw [if_neg hlt]
        by_cases heq : lastLePos = buf.length
        · rw [if_pos heq]
          rcases hgr : growAndRead file maxBufLen buf lastNlPos bufOffset
            with - | gr
          · simp
          · simp only
            rcases hfle : findLogEntries gr.buf (Int.ofNat gr.bufOffset)
                gr.scanToPos gr.lastNlPos re fmt fromT untilT rgx
              with ⟨l', n', a', err, out⟩
            simp only [hfle]
            cases err with
            | some e => simp
            | none => exact ih _ _ _ _ _ _
        · rw [if_neg heq]
          simp
    · exact rsLoopPost_status fileSize bufOffset lastLePos abort dispatched

/-- Status/error pairing through the empty-file check followed by the
driver loop. -/
theorem ite_rsLoop_status (c : Prop) [Decidable c] (file : List Byte)
    (re : Regexp) (fmt : TimeFormat) (fromT untilT : Time)
    (rgx : List Regexp) (maxBufLen fileSize fuel : Nat) (buf : List Byte)
    (bufOffset lastLePos lastNlPos : Nat) (abort : Bool)
    (dispatched : List (List Byte)) :
    ((if c then ((1 : Int), (none : Option RSError), ([] : List (List Byte)))
        else rsLoop file re fmt fromT untilT rgx maxBufLen fileSize fuel buf
          bufOffset lastLePos lastNlPos abort dispatched).1 = -1 ↔
      (if c then ((1 : Int), (none : Option RSError), ([] : List (List Byte)))
        else rsLoop file re fmt fromT untilT rgx maxBufLen fileSize fuel buf
          bufOffset lastLePos lastNlPos abort dispatched).2.1 ≠ none) := by
  split
  · simp
  · apply rsLoop_status

/-- C10: `ReverseSearch` returns a non-`none` error exactly when its
status is −1; every status-0 and status-1 return carries no error. -/
theorem claim_C10_status_error_iff (file : Option (List Byte))
    (sc : SearchCriteria) (startBufLen maxBufLen : Nat) :
    ((ReverseSearch file sc startBufLen maxBufLen).1 = -1 ↔
      (ReverseSearch file sc startBufLen maxBufLen).2.1 ≠ none)
    ∧ (∀ (status : Int) (err : Option RSError) (out : List (List Byte)),
        ReverseSearch file sc startBufLen maxBufLen = (status, err, out) →
        status = 0 ∨ status = 1 → err = none) := by
  have hmain : (ReverseSearch file sc startBufLen maxBufLen).1 = -1 ↔
      (ReverseSearch file sc startBufLen maxBufLen).2.1 ≠ none := by
    unfold ReverseSearch
    split
    · simp
    · split
      · simp
      · split
        · simp
        · split
          · simp
          · split
            · simp
            · split
              · simp
              · dsimp only
                apply ite_rsLoop_status
  refine ⟨hmain, ?_⟩
  intro status err out heq hs
  rw [heq] at hmain
  simp only at hmain
  by_contra hne
  have : status = -1 := hmain.mpr hne
  omega

/-! ## C5: logically empty files and the trailing terminator -/

/-- Appending a single `\n` to a file not ending in a terminator byte is
invisible to the logical file size. -/
theorem strippedFileSize_append_nl (f : List Byte) (hne : 1 ≤ f.length)
    (h13 : f.getD (f.length - 1) 0 ≠ 13) :
    strippedFileSize (f ++ [10]) = f.length := by
  unfold strippedFileSize
  dsimp only
  rw [if_pos (by simp; omega)]
  have hi1 : (f ++ [10]).length - 2 = f.length - 1 := by simp
  have hi2 : (f ++ [10]).length - 1 = f.length := by simp
  rw [hi1, hi2]
  have e1 : (f ++ [10]).getD (f.length - 1) 0 = f.getD (f.length - 1) 0 :=
    List.getD_append f [10] 0 (f.length - 1) (by omega)
  have e2 : (f ++ [10]).getD f.length 0 = 10 := by
    rw [List.getD_append_right f [10] 0 f.length (by omega)]
    simp
  rw [e1, e2]
  have hc1 : ((f.getD (f.length - 1) 0 == 13) && ((10 : Byte) == 10)) ≠
      true := by
    simp only [ne_eq, Bool.and_eq_true, beq_iff_eq]
    rintro ⟨hx, -⟩
    exact h13 hx
  rw [if_neg hc1]
  rw [if_pos (by simp)]

/-- Appending a single `\r\n` is invisible to the logical file size. -/
theorem strippedFileSize_append_crlf (f : List Byte) :
    strippedFileSize (f ++ [13, 10]) = f.length := by
  unfold strippedFileSize
  dsimp only
  rw [if_pos (by simp)]
  have hi1 : (f ++ [13, 10]).length - 2 = f.length := by simp
  have hi2 : (f ++ [13, 10]).length - 1 = f.length + 1 := by simp
  rw [hi1, hi2]
  have e1 : (f ++ [13, 10]).getD f.length 0 = 13 := by
    rw [List.getD_append_right f [13, 10] 0 f.length (by omega)]
    simp
  have e2 : (f ++ [13, 10]).getD (f.length + 1) 0 = 10 := by
    rw [List.getD_append_right f [13, 10] 0 (f.length + 1) (by omega)]
    have hone : f.length + 1 - f.length = 1 := by omega
    rw [hone]
    rfl
  rw [e1, e2]
  rw [if_pos (by simp)]

/-- A file not ending in `\n` keeps its full length as logical size. -/
theorem strippedFileSize_no_terminator (f : List Byte) (hne : 1 ≤ f.length)
    (h10 : f.getD (f.length - 1) 0 ≠ 10) :
    strippedFileSize f = f.length := by
  unfold strippedFileSize
  dsimp only
  have hc2 : (f.getD (f.length - 1) 0 == 10) ≠ true := by
    simp only [ne_eq, beq_iff_eq]
    exact h10
  by_cases h2 : 2 ≤ f.length
  · rw [if_pos h2]
    have hc1 : ((f.getD (f.length - 2) 0 == 13) &&
        (f.getD (f.length - 1) 0 == 10)) ≠ true := by
      simp only [ne_eq, Bool.and_eq_true, beq_iff_eq]
      rintro ⟨-, hx⟩
      exact h10 hx
    rw [if_neg hc1, if_neg hc2]
  · rw [if_neg h2]
    have h1 : f.length = 1 := by omega
    rw [if_pos (by simp [h1])]
    have h0 : (f.getD 0 0 == 10) ≠ true := by
      simp only [ne_eq, beq_iff_eq]
      have hz : f.getD 0 0 = f.getD (f.length - 1) 0 := by rw [h1]
      rw [hz]
      exact h10
    rw [if_neg h0]

/-- Reduction of `ReverseSearch` on an opened file under passing
validation and compilation: what remains is the empty-file check and the
driver loop on the stripped size. -/
theorem ReverseSearch_reduce (sc : SearchCriteria)
    (startBufLen maxBufLen : Nat)
    (h1 : ((!sc.fromTime.isZero || !sc.untilTime.isZero) &&
      sc.leTimeFormat.isNone) = false)
    (h2 : sc.leStartPattern.isNone = false)
    (h3 : ((!sc.fromTime.isZero && !sc.untilTime.isZero) &&
      (sc.fromTime.after sc.untilTime ||
        sc.untilTime.equal sc.fromTime)) = false)
    (rs : List Regexp) (hc : compileCriteriaRegexps sc = some rs)
    (re : Regexp)
    (hre : sc.leStartPattern.bind PatternSrc.compiled = some re)
    (f : List Byte) :
    ReverseSearch (some f) sc startBufLen maxBufLen =
      (if strippedFileSize f < 1 then (1, none, [])
       else
        rsLoop f re
          (sc.leTimeFormat.getD (TimeFormat.mk fun _ => Time.mk none))
          sc.fromTime sc.untilTime rs maxBufLen (strippedFileSize f)
          (strippedFileSize f)
          (List.replicate
            (if strippedFileSize f < startBufLen then strippedFileSize f
             else startBufLen) 0)
          (strippedFileSize f) 0 0 false []) := by
  unfold ReverseSearch
  rw [if_neg (by simp [h1]), if_neg (by simp [h2]), if_neg (by simp [h3])]
  simp only [hc, hre]

/-- C5, counterexample. The claim subsumes "every file containing only
newline characters" under logical size zero, but only a *single* trailing
terminator is stripped: on the file `"\n\n"` the logical size is 1, the
scan finds no entry, and `ReverseSearch` returns status −1 with
`NoLogEntriesInFile` — not status 1. -/
theorem claim_C5_counterexample :
    ReverseSearch (some [10, 10]) plainCriteria 25000 2000000 =
      (-1, some .noLogEntriesInFile, []) ∧ (-1 : Int) ≠ 1 := by
  constructor
  · decide
  · decide

/-- C5, amended: files whose logical size is zero after stripping a single
trailing terminator — the empty file, `"\n"` and `"\r\n"` — give status 1
with no error (for any criteria passing validation and compilation), and a
single trailing terminator is never counted as part of the last entry:
appending one `\n` or `\r\n` to a file not ending in a terminator byte
leaves the whole result of `ReverseSearch` unchanged. -/
theorem claim_C5_empty_and_trailing_terminator (sc : SearchCriteria)
    (startBufLen maxBufLen : Nat)
    (h1 : ((!sc.fromTime.isZero || !sc.untilTime.isZero) &&
      sc.leTimeFormat.isNone) = false)
    (h2 : sc.leStartPattern.isNone = false)
    (h3 : ((!sc.fromTime.isZero && !sc.untilTime.isZero) &&
      (sc.fromTime.after sc.untilTime ||
        sc.untilTime.equal sc.fromTime)) = false)
    (rs : List Regexp) (hc : compileCriteriaRegexps sc = some rs)
    (re : Regexp) (hre : sc.leStartPattern.bind PatternSrc.compiled = some re) :
    ReverseSearch (some []) sc startBufLen maxBufLen = (1, none, [])
    ∧ ReverseSearch (some [10]) sc startBufLen maxBufLen = (1, none, [])
    ∧ ReverseSearch (some [13, 10]) sc startBufLen maxBufLen = (1, none, [])
    ∧ (∀ f : List Byte, 1 ≤ f.length → f.getD (f.length - 1) 0 ≠ 10 →
        f.getD (f.length - 1) 0 ≠ 13 →
        ReverseSearch (some (f ++ [10])) sc startBufLen maxBufLen =
          ReverseSearch (some f) sc startBufLen maxBufLen
        ∧ ReverseSearch (some (f ++ [13, 10])) sc startBufLen maxBufLen =
          ReverseSearch (some f) sc startBufLen maxBufLen) := by
  refine ⟨?_, ?_, ?_, ?_⟩
  · rw [ReverseSearch_reduce sc startBufLen maxBufLen h1 h2 h3 rs hc re hre]
    rw [if_pos (by decide)]
  · rw [ReverseSearch_reduce sc startBufLen maxBufLen h1 h2 h3 rs hc re hre]
    rw [if_pos (by decide)]
  · rw [ReverseSearch_reduce sc startBufLen maxBufLen h1 h2 h3 rs hc re hre]
    rw [if_pos (by decide)]
  · intro f hf h10 h13
    have hnl := strippedFileSize_append_nl f hf h13
    have hcrlf := strippedFileSize_append_crlf f
    have hself := strippedFileSize_no_terminator f hf h10
    have htake1 : (f ++ [10]).take f.length = f.take f.length := by
      rw [List.take_left, List.take_length]
    have htake2 : (f ++ [13, 10]).take f.length = f.take f.length := by
      rw [List.take_left, List.take_length]
    constructor
    · rw [ReverseSearch_reduce sc startBufLen maxBufLen h1 h2 h3 rs hc re
        hre (f ++ [10]),
        ReverseSearch_reduce sc startBufLen maxBufLen h1 h2 h3 rs hc re
        hre f]
      simp only [hnl, hself]
      have hne1 : ¬ f.length < 1 := by omega
      simp only [if_neg hne1]
      exact rsLoop_file_take_congr re
        (sc.leTimeFormat.getD (TimeFormat.mk fun _ => Time.mk none))
        sc.fromTime sc.untilTime rs maxBufLen f.length f.length (f ++ [10])
        f f.length f.length _ 0 0 false [] (le_refl f.length) htake1
    · rw [ReverseSearch_reduce sc startBufLen maxBufLen h1 h2 h3 rs hc re
        hre (f ++ [13, 10]),
        ReverseSearch_reduce sc startBufLen maxBufLen h1 h2 h3 rs hc re
        hre f]
      simp only [hcrlf, hself]
      have hne1 : ¬ f.length < 1 := by omega
      simp only [if_neg hne1]
      exact rsLoop_file_take_congr re
        (sc.leTimeFormat.getD (TimeFormat.mk fun _ => Time.mk none))
        sc.fromTime sc.untilTime rs maxBufLen f.length f.length
        (f ++ [13, 10]) f f.length f.length _ 0 0 false []
        (le_refl f.length) htake2

/-- C5, witness: the amended theorem applied to the concrete criteria with
the `X<digit>` pattern, on the empty file and on the one-byte file `"X"`. -/
theorem claim_C5_witness :
    ReverseSearch (some []) plainCriteria 7 9 = (1, none, []) ∧
      ReverseSearch (some ([88] ++ [10])) plainCriteria 7 9 =
        ReverseSearch (some [88]) plainCriteria 7 9 :=
  ⟨(claim_C5_empty_and_trailing_terminator plainCriteria 7 9 rfl rfl rfl []
      rfl digitRe rfl).1,
   ((claim_C5_empty_and_trailing_terminator plainCriteria 7 9 rfl rfl rfl []
      rfl digitRe rfl).2.2.2 [88] (by decide) (by decide) (by decide)).1⟩

/-! ## C4: window-size independence

The driver is proved equal to a single reference scan of the whole
logical file (`findLogEntries` over `f.take (strippedFileSize f)` in one
window), for every positive `StartBufLen`, whenever `MaxBufLen` is at
least the logical size; window-size independence follows. -/

/-- Length of a subslice inside the list. -/
theorem subslice_length {l : List Byte} {a b : Nat} (h : b ≤ l.length)
    (hab : a ≤ b) : (subslice l a b).length = b - a := by
  simp [subslice]
  omega

/-- Two adjacent subslices concatenate. -/
theorem subslice_append_adjacent {l : List Byte} {a b c : Nat}
    (hab : a ≤ b) (hbc : b ≤ c) (hc : c ≤ l.length) :
    subslice l a b ++ subslice l b c = subslice l a c := by
  unfold subslice
  have h1 : l.drop a = (l.drop a).take (b - a) ++ (l.drop a).drop (b - a) :=
    (List.take_append_drop (b - a) (l.drop a)).symm
  have h2 : (l.drop a).drop (b - a) = l.drop b := by
    rw [List.drop_drop]
    congr 1
    omega
  calc (l.drop a).take (b - a) ++ (l.drop b).take (c - b)
      = (l.drop a).take (b - a) ++ ((l.drop a).drop (b - a)).take (c - b) := by
        rw [h2]
    _ = ((l.drop a).take (b - a) ++ (l.drop a).drop (b - a)).take
          ((b - a) + (c - b)) := by
        rw [List.take_append_eq_append_take]
        congr 1
        · rw [List.take_take]
          congr 1
          have hla : (l.drop a).length = l.length - a := by simp
          have hlen : ((l.drop a).take (b - a)).length = b - a := by
            simp
            omega
          omega
        · congr 1
          have hlen : ((l.drop a).take (b - a)).length = b - a := by
            simp
            omega
          omega
    _ = (l.drop a).take (c - a) := by
        rw [← h1]
        congr 1
        omega

/-- A subslice of a window is the corresponding subslice of the file. -/
theorem subslice_subslice {F : List Byte} {A len a b : Nat}
    (hb : b ≤ len) :
    subslice (subslice F A (A + len)) a b = subslice F (A + a) (A + b) := by
  unfold subslice
  have h1 : ((F.drop A).take (A + len - A)).drop a =
      ((F.drop A).drop a).take (A + len - A - a) := by
    rw [List.drop_take]
  rw [h1, List.take_take, List.drop_drop]
  congr 1
  omega

/-- Reading a byte of a window reads the corresponding file byte. -/
theorem subslice_getD {F : List Byte} {A len i : Nat} (hi : i < len)
    (hlen : A + len ≤ F.length) :
    (subslice F A (A + len)).getD i 0 = F.getD (A + i) 0 := by
  unfold subslice
  have h1 : A + len - A = len := by omega
  rw [h1]
  have h2 : ((F.drop A).take len).getD i 0 = (F.drop A).getD i 0 := by
    rcases Nat.lt_or_ge i (F.drop A).length with hc | hc
    · rw [List.getD_eq_getElem?_getD, List.getD_eq_getElem?_getD]
      rw [List.getElem?_take_of_lt hi]
    · have : (F.drop A).length = F.length - A := by simp
      omega
  rw [h2]
  rw [List.getD_eq_getElem?_getD, List.getD_eq_getElem?_getD,
    List.getElem?_drop]

/-- `readAt` is a subslice. -/
theorem readAt_eq_subslice (l : List Byte) (off n : Nat) :
    readAt l off n = subslice l off (off + n) := by
  unfold readAt subslice
  congr 1
  omega

/-- A prefix of a window is a window. -/
theorem subslice_take {F : List Byte} {A len k : Nat} (hk : k ≤ len) :
    (subslice F A (A + len)).take k = subslice F A (A + k) := by
  unfold subslice
  rw [List.take_take]
  congr 1
  omega

/-- One push step of the newline scan at `bufIndex` (the body of the
`for` loop of source lines 274-282). -/
def nlStep (buf : List Byte) (bufIndex : Nat) (stack : List (Nat × Nat)) :
    List (Nat × Nat) :=
  if buf.getD (bufIndex - 1) 0 == 13 && buf.getD bufIndex 0 == 10 then
    (bufIndex - 1, 2) :: stack
  else if buf.getD bufIndex 0 == 10 then (bufIndex, 1) :: stack
  else stack

/-- The newline scan past its last index returns the stack unchanged. -/
theorem nlScan_done (buf : List Byte) (s i : Nat)
    (st : List (Nat × Nat)) (h : s < i) : nlScan buf s i st = st := by
  unfold nlScan
  have h0 : s + 1 - i = 0 := by omega
  rw [h0]
  rfl

/-- The newline scan unfolds one `nlStep` at its current index. -/
theorem nlScan_step (buf : List Byte) (s i : Nat)
    (st : List (Nat × Nat)) (h : i ≤ s) :
    nlScan buf s i st = nlScan buf s (i + 1) (nlStep buf i st) := by
  unfold nlScan
  have h1 : s + 1 - i = (s - i) + 1 := by omega
  have h2 : s + 1 - (i + 1) = s - i := by omega
  rw [h1, h2]
  rw [nlScanAux]
  rw [if_pos h]
  rfl

/-- The newline scan only appends to its initial stack. -/
theorem nlScan_acc (buf : List Byte) (s : Nat) :
    ∀ (n i : Nat) (st : List (Nat × Nat)), s + 1 - i ≤ n →
      nlScan buf s i st = nlScan buf s i [] ++ st := by
  intro n
  induction n with
  | zero =>
    intro i st hn
    have hi : s < i := by omega
    rw [nlScan_done buf s i st hi, nlScan_done buf s i [] hi]
    simp
  | succ n ih =>
    intro i st hn
    by_cases hi : i ≤ s
    · rw [nlScan_step buf s i st hi, nlScan_step buf s i [] hi]
      rw [ih (i + 1) (nlStep buf i st) (by omega),
        ih (i + 1) (nlStep buf i []) (by omega)]
      unfold nlStep
      split
      · simp
      · split
        · simp
        · simp
    · have hi' : s < i := by omega
      rw [nlScan_done buf s i st hi', nlScan_done buf s i [] hi']
      simp

/-- Scanning `[lo, s]` is scanning `[lo, m]` and then `[m+1, s]` on top of
its result. -/
theorem nlScan_split (buf : List Byte) (s : Nat) :
    ∀ (n lo m : Nat) (st : List (Nat × Nat)), m + 1 - lo ≤ n →
      lo ≤ m + 1 → m ≤ s →
      nlScan buf s lo st = nlScan buf s (m + 1) (nlScan buf m lo st) := by
  intro n
  induction n with
  | zero =>
    intro lo m st hn hlo hm
    have hlo' : lo = m + 1 := by omega
    subst hlo'
    rw [nlScan_done buf m (m + 1) st (by omega)]
  | succ n ih =>
    intro lo m st hn hlo hm
    by_cases hlt : lo ≤ m
    · rw [nlScan_step buf s lo st (by omega), nlScan_step buf m lo st hlt]
      exact ih (lo + 1) m (nlStep buf lo st) (by omega) (by omega) hm
    · have hlo' : lo = m + 1 := by omega
      subst hlo'
      rw [nlScan_done buf m (m + 1) st (by omega)]

/-- A scan whose top index holds no `\n` byte may stop one short: the last
iteration pushes nothing. -/
theorem nlScan_top_miss (buf : List Byte) (s lo : Nat)
    (st : List (Nat × Nat)) (h10 : buf.getD s 0 ≠ 10) (hs : 1 ≤ s)
    (hlo : lo ≤ s) :
    nlScan buf s lo st = nlScan buf (s - 1) lo st := by
  have hsplit := nlScan_split buf s (s + 1 - lo) lo (s - 1) st (by omega)
    (by omega) (by omega)
  have hs1 : s - 1 + 1 = s := by omega
  rw [hs1] at hsplit
  rw [hsplit]
  rw [nlScan_step buf s s _ (by omega)]
  rw [nlScan_done buf s (s + 1) _ (by omega)]
  unfold nlStep
  rw [if_neg (by
    simp only [Bool.and_eq_true, beq_iff_eq]
    rintro ⟨-, hc⟩
    exact h10 hc)]
  rw [if_neg (by
    simp only [beq_iff_eq]
    exact h10)]

/-- Scanning a window at file offset `A` catalogues, after translation by
`A`, exactly what scanning the corresponding file range catalogues. -/
theorem nlScan_shift {F : List Byte} {A len : Nat} (s : Nat)
    (hlen : A + len ≤ F.length) (hs : s + 1 ≤ len) :
    ∀ (n i : Nat) (st : List (Nat × Nat)), s + 1 - i ≤ n → 1 ≤ i →
      nlScan F (A + s) (A + i) (st.map (fun q => (q.1 + A, q.2))) =
        (nlScan (subslice F A (A + len)) s i st).map
          (fun q => (q.1 + A, q.2)) := by
  intro n
  induction n with
  | zero =>
    intro i st hn hi
    have hlt : s < i := by omega
    rw [nlScan_done _ s i st hlt, nlScan_done _ (A + s) (A + i) _ (by omega)]
  | succ n ih =>
    intro i st hn hi
    by_cases hlt : i ≤ s
    · rw [nlScan_step _ s i st hlt,
        nlScan_step _ (A + s) (A + i) _ (by omega)]
      have hstep : nlStep F (A + i) (st.map (fun q => (q.1 + A, q.2))) =
          (nlStep (subslice F A (A + len)) i st).map
            (fun q => (q.1 + A, q.2)) := by
        unfold nlStep
        have hb1 : F.getD (A + i - 1) 0 =
            (subslice F A (A + len)).getD (i - 1) 0 := by
          rw [subslice_getD (by omega) hlen]
          congr 1
          omega
        have hb2 : F.getD (A + i) 0 = (subslice F A (A + len)).getD i 0 := by
          rw [subslice_getD (by omega) hlen]
        rw [hb1, hb2]
        split
        · simp only [List.map_cons]
          congr 2
          omega
        · split
          · simp only [List.map_cons]
            congr 2
            omega
          · rfl
      rw [hstep]
      have hsucc : A + i + 1 = A + (i + 1) := by omega
      rw [hsucc]
      exact ih (i + 1) (nlStep (subslice F A (A + len)) i st) (by omega)
        (by omega)
    · have hlt' : s < i := by omega
      rw [nlScan_done _ s i st hlt',
        nlScan_done _ (A + s) (A + i) _ (by omega)]

/-- Every record catalogued by the scan (beyond the initial stack) is a
real newline of the buffer, in range: width 1 at a `\n` byte, width 2 at a
`\r\n` pair (source lines 275-281). -/
theorem nlScan_mem (buf : List Byte) (s : Nat) :
    ∀ (n i : Nat) (st : List (Nat × Nat)) (q : Nat × Nat),
      s + 1 - i ≤ n → 1 ≤ i → q ∈ nlScan buf s i st →
      q ∈ st ∨
      (q.2 = 1 ∧ buf.getD q.1 0 = 10 ∧ i ≤ q.1 ∧ q.1 ≤ s) ∨
      (q.2 = 2 ∧ buf.getD q.1 0 = 13 ∧ buf.getD (q.1 + 1) 0 = 10 ∧
        i - 1 ≤ q.1 ∧ q.1 + 1 ≤ s) := by
  intro n
  induction n with
  | zero =>
    intro i st q hn hi hq
    rw [nlScan_done buf s i st (by omega)] at hq
    exact Or.inl hq
  | succ n ih =>
    intro i st q hn hi hq
    by_cases hlt : i ≤ s
    · rw [nlScan_step buf s i st hlt] at hq
      rcases ih (i + 1) (nlStep buf i st) q (by omega) (by omega) hq with
        h | h | h
      · unfold nlStep at h
        split at h
        · rename_i hbytes
          simp only [Bool.and_eq_true, beq_iff_eq] at hbytes
          simp only [List.mem_cons] at h
          rcases h with h | h
          · refine Or.inr (Or.inr ?_)
            rw [h]
            refine ⟨rfl, hbytes.1, ?_, ?_, ?_⟩
            · show buf.getD (i - 1 + 1) 0 = 10
              have h1 : i - 1 + 1 = i := by omega
              rw [h1]
              exact hbytes.2
            · show i - 1 ≤ i - 1
              omega
            · show i - 1 + 1 ≤ s
              omega
          · exact Or.inl h
        · split at h
          · rename_i hbyte
            simp only [beq_iff_eq] at hbyte
            simp only [List.mem_cons] at h
            rcases h with h | h
            · refine Or.inr (Or.inl ?_)
              rw [h]
              refine ⟨rfl, hbyte, ?_, ?_⟩
              · show i ≤ i
                omega
              · show i ≤ s
                omega
            · exact Or.inl h
          · exact Or.inl h
      · exact Or.inr (Or.inl ⟨h.1, h.2.1, by omega, h.2.2.2⟩)
      · exact Or.inr (Or.inr ⟨h.1, h.2.1, h.2.2.1, by omega, h.2.2.2.2⟩)
    · rw [nlScan_done buf s i st (by omega)] at hq
      exact Or.inl hq

/-- Stacks of newline records with strictly decreasing positions, the head
strictly below a bound. -/
def stackOk : List (Nat × Nat) → Nat → Prop
  | [], _ => True
  | q :: rest, b => q.1 < b ∧ stackOk rest q.1

/-- Weakening the bound of `stackOk`. -/
theorem stackOk_mono {st : List (Nat × Nat)} {b b' : Nat}
    (h : stackOk st b) (hb : b ≤ b') : stackOk st b' := by
  cases st with
  | nil => trivial
  | cons q rest =>
    refine ⟨?_, h.2⟩
    have h1 := h.1
    omega

/-- Every position of a bounded descending stack is below the bound. -/
theorem stackOk_all_lt {st : List (Nat × Nat)} {b : Nat}
    (h : stackOk st b) : ∀ q ∈ st, q.1 < b := by
  induction st generalizing b with
  | nil => intro q hq; cases hq
  | cons q0 rest ih =>
    intro q hq
    simp only [List.mem_cons] at hq
    rcases hq with hq | hq
    · rw [hq]
      exact h.1
    · have h1 := ih h.2 q hq
      have h2 := h.1
      omega

/-- The scan pushes strictly ascending positions: its output is a strictly
descending stack bounded by `scanToPos + 1`. -/
theorem nlScan_stackOk (buf : List Byte) (s : Nat) :
    ∀ (n i : Nat) (st : List (Nat × Nat)),
      s + 1 - i ≤ n → 1 ≤ i → i ≤ s + 1 → stackOk st i →
      (∀ q ∈ st, q.1 = i - 1 →
        ¬(buf.getD (i - 1) 0 = 13 ∧ buf.getD i 0 = 10)) →
      stackOk (nlScan buf s i st) (s + 1) := by
  intro n
  induction n with
  | zero =>
    intro i st hn hi his hok hhd
    rw [nlScan_done buf s i st (by omega)]
    exact stackOk_mono hok (by omega)
  | succ n ih =>
    intro i st hn hi his hok hhd
    by_cases hlt : i ≤ s
    · rw [nlScan_step buf s i st hlt]
      have hall : ∀ q ∈ st, q.1 < i := stackOk_all_lt hok
      have hstep : stackOk (nlStep buf i st) (i + 1) ∧
          (∀ q ∈ nlStep buf i st, q.1 = i →
            ¬(buf.getD i 0 = 13 ∧ buf.getD (i + 1) 0 = 10)) := by
        unfold nlStep
        split
        · rename_i hbytes
          simp only [Bool.and_eq_true, beq_iff_eq] at hbytes
          have hheadlt : ∀ q ∈ st, q.1 < i - 1 := by
            intro q hq
            rcases Nat.lt_or_ge q.1 (i - 1) with hc | hc
            · exact hc
            · have hq1 : q.1 = i - 1 := by
                have := hall q hq
                omega
              exact absurd ⟨hbytes.1, hbytes.2⟩ (hhd q hq hq1)
          constructor
          · refine ⟨by omega, ?_⟩
            cases st with
            | nil => trivial
            | cons q0 rest =>
              exact ⟨hheadlt q0 (by simp), hok.2⟩
          · intro q hq hq1
            simp only [List.mem_cons] at hq
            rcases hq with hq | hq
            · exfalso
              rw [hq] at hq1
              simp only at hq1
              omega
            · exfalso
              have h2 := hheadlt q hq
              omega
        · split
          · rename_i hno2 hbyte
            simp only [beq_iff_eq] at hbyte
            constructor
            · exact ⟨by omega, stackOk_mono hok (by omega)⟩
            · intro q hq hq1
              simp only [List.mem_cons] at hq
              rcases hq with hq | hq
              · rintro ⟨h13, -⟩
                rw [hbyte] at h13
                exact absurd h13 (by decide)
              · exfalso
                have h2 := hall q hq
                omega
          · constructor
            · exact stackOk_mono hok (by omega)
            · intro q hq hq1
              exfalso
              have h2 := hall q hq
              omega
      exact ih (i + 1) (nlStep buf i st) (by omega) (by omega) (by omega)
        hstep.1 hstep.2
    · rw [nlScan_done buf s i st (by omega)]
      exact stackOk_mono hok (by omega)

/-- The conditional dispatch of the traversal loop only appends to the
accumulator. -/
theorem dispatch_ite_acc (rgx : List Regexp) (c : Bool) (e : List Byte)
    (a : List (List Byte)) :
    (if c = true then processLogEntry e rgx a else a) =
      a ++ (if c = true then processLogEntry e rgx [] else []) := by
  cases c with
  | false => simp
  | true =>
    by_cases hm : (rgx.all fun r => r.isMatch e) = true
    · simp [processLogEntry, hm]
    · simp [processLogEntry, hm]

/-- The traversal loop threads its accumulator: positions, abort and error
ignore it, and the output is the accumulator followed by the output of the
run started empty. -/
theorem fleLoop_acc (buf : List Byte) (re : Regexp) (fmt : TimeFormat)
    (fromT untilT : Time) (rgx : List Regexp) (stack : List (Nat × Nat)) :
    ∀ (l n : Nat) (acc : List (List Byte)),
      fleLoop buf re fmt fromT untilT rgx stack l n acc =
        ((fleLoop buf re fmt fromT untilT rgx stack l n []).1,
         (fleLoop buf re fmt fromT untilT rgx stack l n []).2.1,
         (fleLoop buf re fmt fromT untilT rgx stack l n []).2.2.1,
         (fleLoop buf re fmt fromT untilT rgx stack l n []).2.2.2.1,
         acc ++ (fleLoop buf re fmt fromT untilT rgx stack l n
           []).2.2.2.2) := by
  induction stack with
  | nil =>
    intro l n acc
    simp [fleLoop]
  | cons hd rest ih =>
    rcases hd with ⟨p, w⟩
    intro l n acc
    rcases hPL : processLine (subslice buf (p + w) n) re fmt fromT untilT
      with ⟨so, fs, us, err⟩
    cases err with
    | some e' =>
      simp only [fleLoop, hPL]
      simp
    | none =>
      cases so with
      | false =>
        simp only [fleLoop, hPL]
        exact ih l p acc
      | true =>
        cases fs with
        | false =>
          simp only [fleLoop, hPL]
          simp
        | true =>
          simp only [fleLoop, hPL, if_true, Bool.true_eq_false, if_false]
          rw [dispatch_ite_acc rgx us (subslice buf (p + w) l) acc]
          rw [ih p p
            (acc ++ if us = true then
              processLogEntry (subslice buf (p + w) l) rgx [] else []),
            ih p p
            (if us = true then
              processLogEntry (subslice buf (p + w) l) rgx [] else [])]
          simp

/-- Composition of the traversal: a clean run over the top segment of the
stack continues into the rest from its final state. -/
theorem fleLoop_append_ok (buf : List Byte) (re : Regexp) (fmt : TimeFormat)
    (fromT untilT : Time) (rgx : List Regexp) (S1 : List (Nat × Nat)) :
    ∀ (S2 : List (Nat × Nat)) (l n : Nat) (acc : List (List Byte))
      (l' n' : Nat) (acc' : List (List Byte)),
      fleLoop buf re fmt fromT untilT rgx S1 l n acc =
        (l', n', false, none, acc') →
      fleLoop buf re fmt fromT untilT rgx (S1 ++ S2) l n acc =
        fleLoop buf re fmt fromT untilT rgx S2 l' n' acc' := by
  induction S1 with
  | nil =>
    intro S2 l n acc l' n' acc' h
    simp only [fleLoop, Prod.mk.injEq] at h
    rcases h with ⟨h1, h2, -, -, h5⟩
    subst h1
    subst h2
    subst h5
    simp
  | cons hd rest ih =>
    rcases hd with ⟨p, w⟩
    intro S2 l n acc l' n' acc' h
    rcases hPL : processLine (subslice buf (p + w) n) re fmt fromT untilT
      with ⟨so, fs, us, err⟩
    cases err with
    | some e' =>
      simp only [fleLoop, hPL] at h
      simp at h
    | none =>
      cases so with
      | false =>
        simp only [fleLoop, hPL] at h ⊢
        exact ih S2 l p acc l' n' acc' h
      | true =>
        cases fs with
        | false =>
          simp only [fleLoop, hPL] at h
          simp at h
        | true =>
          simp only [fleLoop, hPL] at h ⊢
          exact ih S2 p p _ l' n' acc' h

/-- Composition of the traversal: a run that aborts or errors in the top
segment of the stack is the whole run. -/
theorem fleLoop_append_stop (buf : List Byte) (re : Regexp)
    (fmt : TimeFormat) (fromT untilT : Time) (rgx : List Regexp)
    (S1 : List (Nat × Nat)) :
    ∀ (S2 : List (Nat × Nat)) (l n : Nat) (acc : List (List Byte))
      (l' n' : Nat) (ab : Bool) (err : Option RSError)
      (acc' : List (List Byte)),
      fleLoop buf re fmt fromT untilT rgx S1 l n acc =
        (l', n', ab, err, acc') →
      (ab = true ∨ err ≠ none) →
      fleLoop buf re fmt fromT untilT rgx (S1 ++ S2) l n acc =
        (l', n', ab, err, acc') := by
  induction S1 with
  | nil =>
    intro S2 l n acc l' n' ab err acc' h hstop
    simp only [fleLoop, Prod.mk.injEq] at h
    rcases h with ⟨-, -, h3, h4, -⟩
    rcases hstop with hstop | hstop
    · rw [← h3] at hstop
      cases hstop
    · rw [← h4] at hstop
      exact absurd rfl hstop
  | cons hd rest ih =>
    rcases hd with ⟨p, w⟩
    intro S2 l n acc l' n' ab err acc' h hstop
    rcases hPL : processLine (subslice buf (p + w) n) re fmt fromT untilT
      with ⟨so, fs, us, err0⟩
    cases err0 with
    | some e' =>
      simp only [fleLoop, hPL] at h ⊢
      exact h
    | none =>
      cases so with
      | false =>
        simp only [fleLoop, hPL] at h ⊢
        exact ih S2 l p acc l' n' ab err acc' h hstop
      | true =>
        cases fs with
        | false =>
          simp only [fleLoop, hPL] at h ⊢
          exact h
        | true =>
          simp only [fleLoop, hPL] at h ⊢
          exact ih S2 p p _ l' n' ab err acc' h hstop

/-- The traversal of a window at file offset `A` is the traversal of the
file on the translated stack and positions: line and entry slices agree,
so every decision agrees, and returned positions differ by `A`. -/
theorem fleLoop_shift {F : List Byte} {A len : Nat} (re : Regexp)
    (fmt : TimeFormat) (fromT untilT : Time) (rgx : List Regexp)
    (hlen : A + len ≤ F.length) :
    ∀ (stack : List (Nat × Nat)) (l n : Nat) (acc : List (List Byte)),
      (∀ q ∈ stack, q.1 + q.2 ≤ len ∧ q.1 ≤ len) → l ≤ len → n ≤ len →
      fleLoop F re fmt fromT untilT rgx
          (stack.map (fun q => (q.1 + A, q.2))) (A + l) (A + n) acc =
        ((fleLoop (subslice F A (A + len)) re fmt fromT untilT rgx
            stack l n acc).1 + A,
         (fleLoop (subslice F A (A + len)) re fmt fromT untilT rgx
            stack l n acc).2.1 + A,
         (fleLoop (subslice F A (A + len)) re fmt fromT untilT rgx
            stack l n acc).2.2.1,
         (fleLoop (subslice F A (A + len)) re fmt fromT untilT rgx
            stack l n acc).2.2.2.1,
         (fleLoop (subslice F A (A + len)) re fmt fromT untilT rgx
            stack l n acc).2.2.2.2) := by
  intro stack
  induction stack with
  | nil =>
    intro l n acc hq hl hn
    simp only [List.map_nil, fleLoop]
    simp [Nat.add_comm]
  | cons hd rest ih =>
    rcases hd with ⟨p, w⟩
    intro l n acc hq hl hn
    have hpw : p + w ≤ len := (hq (p, w) (by simp)).1
    have hp : p ≤ len := (hq (p, w) (by simp)).2
    have hline : subslice F (p + A + w) (A + n) =
        subslice (subslice F A (A + len)) (p + w) n := by
      rw [subslice_subslice hn]
      congr 1
      omega
    have hentry : subslice F (p + A + w) (A + l) =
        subslice (subslice F A (A + len)) (p + w) l := by
      rw [subslice_subslice hl]
      congr 1
      omega
    simp only [List.map_cons, fleLoop, hline]
    rcases hPL : processLine
        (subslice (subslice F A (A + len)) (p + w) n) re fmt fromT untilT
      with ⟨so, fs, us, err⟩
    cases err with
    | some e' =>
      simp only
      cases so with
      | false => simp [Nat.add_comm]
      | true => simp [Nat.add_comm]
    | none =>
      cases so with
      | false =>
        rw [if_neg (by simp), if_neg (by simp)]
        have hcomm : p + A = A + p := by omega
        rw [hcomm]
        exact ih l p acc (fun q hmem => hq q (by simp [hmem])) hl hp
      | true =>
        cases fs with
        | false =>
          simp [Nat.add_comm]
        | true =>
          conv_lhs => rw [if_pos rfl, if_neg (by simp : ¬(true = false))]
          conv_rhs => rw [if_pos rfl, if_neg (by simp : ¬(true = false))]
          rw [hentry]
          have hcomm : p + A = A + p := by omega
          rw [hcomm]
          exact ih p p
            (if us = true then
              processLogEntry
                (subslice (subslice F A (A + len)) (p + w) l) rgx acc
             else acc)
            (fun q hmem => hq q (by simp [hmem])) hp hp

/-- State bounds of the traversal over a descending stack: the earliest
entry start only moves down to a catalogued position, and the last
processed newline stays at or below it. -/
theorem fleLoop_state_le (buf : List Byte) (re : Regexp) (fmt : TimeFormat)
    (fromT untilT : Time) (rgx : List Regexp) (stack : List (Nat × Nat)) :
    ∀ (l n : Nat) (acc : List (List Byte)),
      stackOk stack (n + 1) → n ≤ l →
      (fleLoop buf re fmt fromT untilT rgx stack l n acc).2.1 ≤
          (fleLoop buf re fmt fromT untilT rgx stack l n acc).1 ∧
        (fleLoop buf re fmt fromT untilT rgx stack l n acc).1 ≤ l ∧
        ((fleLoop buf re fmt fromT untilT rgx stack l n acc).1 = l ∨
          ∃ w, ((fleLoop buf re fmt fromT untilT rgx stack l n acc).1, w) ∈
            stack) := by
  induction stack with
  | nil =>
    intro l n acc hok hnl
    exact ⟨hnl, le_refl l, Or.inl rfl⟩
  | cons hd rest ih =>
    rcases hd with ⟨p, w⟩
    intro l n acc hok hnl
    have hpn : p < n + 1 := hok.1
    have hrest : stackOk rest p := hok.2
    rcases hPL : processLine (subslice buf (p + w) n) re fmt fromT untilT
      with ⟨so, fs, us, err⟩
    cases err with
    | some e' =>
      cases so with
      | false =>
        have heq : fleLoop buf re fmt fromT untilT rgx ((p, w) :: rest)
            l n acc = (l, p, false, some e', acc) := by
          simp [fleLoop, hPL]
        rw [heq]
        dsimp only
        exact ⟨by omega, le_refl l, Or.inl rfl⟩
      | true =>
        have heq : fleLoop buf re fmt fromT untilT rgx ((p, w) :: rest)
            l n acc = (p, p, false, some e', acc) := by
          simp [fleLoop, hPL]
        rw [heq]
        dsimp only
        exact ⟨le_refl p, by omega, Or.inr ⟨w, by simp⟩⟩
    | none =>
      cases so with
      | false =>
        have heq : fleLoop buf re fmt fromT untilT rgx ((p, w) :: rest)
            l n acc = fleLoop buf re fmt fromT untilT rgx rest l p acc := by
          simp [fleLoop, hPL]
        rw [heq]
        have hr := ih l p acc (stackOk_mono hrest (by omega)) (by omega)
        refine ⟨hr.1, hr.2.1, ?_⟩
        rcases hr.2.2 with h | ⟨w', hmem⟩
        · exact Or.inl h
        · exact Or.inr ⟨w', by simp [hmem]⟩
      | true =>
        cases fs with
        | false =>
          have heq : fleLoop buf re fmt fromT untilT rgx ((p, w) :: rest)
              l n acc = (p, p, true, none, acc) := by
            simp [fleLoop, hPL]
          rw [heq]
          dsimp only
          exact ⟨le_refl p, by omega, Or.inr ⟨w, by simp⟩⟩
        | true =>
          have heq : fleLoop buf re fmt fromT untilT rgx ((p, w) :: rest)
              l n acc = fleLoop buf re fmt fromT untilT rgx rest p p
                (if us = true then
                  processLogEntry (subslice buf (p + w) l) rgx acc
                 else acc) := by
            simp [fleLoop, hPL]
          rw [heq]
          have hr := ih p p
            (if us = true then
              processLogEntry (subslice buf (p + w) l) rgx acc
             else acc) (stackOk_mono hrest (by omega)) (le_refl p)
          refine ⟨hr.1, by omega, ?_⟩
          rcases hr.2.2 with h | ⟨w', hmem⟩
          · exact Or.inr ⟨w, by simp [h]⟩
          · exact Or.inr ⟨w', by simp [hmem]⟩

/-- The file-start corner of `findLogEntries` (source lines 253-271):
initial scan index and pre-pushed newline record when the window has
reached file offset zero, as a function of the first bytes and the
length. -/
def fileInit (F : List Byte) (len : Nat) : Nat × List (Nat × Nat) :=
  if F.getD 0 0 == 10 then (1, [(0, 1)])
  else if decide (2 ≤ len) && F.getD 0 0 == 13 && F.getD 1 0 == 10 then
    (2, [(0, 2)])
  else (1, [(0, 0)])

/-- The reference stack: all newline records of the logical file catalogued
from the file-start corner up to scan index `B`. -/
def refTail (F : List Byte) (len B : Nat) : List (Nat × Nat) :=
  nlScan F B (fileInit F len).1 (fileInit F len).2

/-- Assembly of the final answer from the state of the traversal over the
whole logical file: an error gives status −1, otherwise the post-loop
checks of the driver run at file offset zero. -/
def assembleRef (L : Nat)
    (r : Nat × Nat × Bool × Option RSError × List (List Byte)) :
    Int × Option RSError × List (List Byte) :=
  match r.2.2.2.1 with
  | some e => (-1, some e, r.2.2.2.2)
  | none => rsLoopPost L 0 r.1 r.2.2.1 r.2.2.2.2

/-- The corner's initial scan index is 1 or 2. -/
theorem fileInit_fst (F : List Byte) (len : Nat) :
    (fileInit F len).1 = 1 ∨ (fileInit F len).1 = 2 := by
  unfold fileInit
  split
  · exact Or.inl rfl
  · split
    · exact Or.inr rfl
    · exact Or.inl rfl

/-- The corner record is at position 0; width 2 only with the `\r\n` pair
present and a window of at least two bytes. -/
theorem fileInit_snd (F : List Byte) (len : Nat) :
    ∀ q ∈ (fileInit F len).2, q.1 = 0 ∧ q.2 ≤ 2 ∧ (q.2 = 2 → 2 ≤ len) := by
  unfold fileInit
  split
  · intro q hq
    simp only [List.mem_singleton] at hq
    rw [hq]
    exact ⟨rfl, by omega, by simp⟩
  · split
    · rename_i hpair
      simp only [Bool.and_eq_true, decide_eq_true_eq, beq_iff_eq] at hpair
      intro q hq
      simp only [List.mem_singleton] at hq
      rw [hq]
      exact ⟨rfl, by omega, fun _ => hpair.1.1⟩
    · intro q hq
      simp only [List.mem_singleton] at hq
      rw [hq]
      exact ⟨rfl, by omega, by simp⟩

/-- The file-start corner computed on a prefix window agrees with the one
computed on the logical file, except in the excluded case of a one-byte
window against a leading `\r\n`. -/
theorem fileInit_take (F : List Byte) (L R : Nat) (hR : 1 ≤ R)
    (hRL : R ≤ L) (hLF : F.length = L)
    (hcorner : F.getD 0 0 = 13 → F.getD 1 0 = 10 → 2 ≤ R) :
    fileInit (F.take R) R = fileInit F L := by
  have hg0 : (F.take R).getD 0 0 = F.getD 0 0 := by
    rw [List.getD_eq_getElem?_getD, List.getD_eq_getElem?_getD,
      List.getElem?_take_of_lt (by omega)]
  unfold fileInit
  rw [hg0]
  by_cases h10 : F.getD 0 0 == 10
  · rw [if_pos h10, if_pos h10]
  · rw [if_neg h10, if_neg h10]
    by_cases h13 : F.getD 0 0 == 13
    · simp only [beq_iff_eq] at h13
      by_cases hR2 : 2 ≤ R
      · have hg1 : (F.take R).getD 1 0 = F.getD 1 0 := by
          rw [List.getD_eq_getElem?_getD, List.getD_eq_getElem?_getD,
            List.getElem?_take_of_lt (by omega)]
        rw [hg1]
        have hL2 : 2 ≤ L := by omega
        simp only [hR2, hL2, decide_True]
      · have hn10 : F.getD 1 0 ≠ 10 := by
          intro hc
          exact hR2 (hcorner h13 hc)
        have hc1 : (decide (2 ≤ R) && F.getD 0 0 == 13 &&
            (F.take R).getD 1 0 == 10) = false := by
          simp only [Bool.and_eq_false_iff]
          left
          left
          simpa using hR2
        have hc2 : (decide (2 ≤ L) && F.getD 0 0 == 13 &&
            F.getD 1 0 == 10) = false := by
          simp only [Bool.and_eq_false_iff]
          right
          simpa using hn10
        rw [hc1, hc2]
    · have hc1 : (decide (2 ≤ R) && F.getD 0 0 == 13 &&
          (F.take R).getD 1 0 == 10) = false := by
        simp only [Bool.and_eq_false_iff]
        left
        right
        simpa using h13
      have hc2 : (decide (2 ≤ L) && F.getD 0 0 == 13 &&
          F.getD 1 0 == 10) = false := by
        simp only [Bool.and_eq_false_iff]
        left
        right
        simpa using h13
      rw [hc1, hc2]

/-- Scanning a prefix window at file offset zero catalogues exactly what
scanning the file itself catalogues over the same range. -/
theorem nlScan_take (F : List Byte) (R : Nat) (s : Nat) (hs : s + 1 ≤ R) :
    ∀ (n i : Nat) (st : List (Nat × Nat)), s + 1 - i ≤ n →
      nlScan (F.take R) s i st = nlScan F s i st := by
  intro n
  induction n with
  | zero =>
    intro i st hn
    rw [nlScan_done _ s i st (by omega), nlScan_done _ s i st (by omega)]
  | succ n ih =>
    intro i st hn
    by_cases hlt : i ≤ s
    · rw [nlScan_step _ s i st hlt, nlScan_step _ s i st hlt]
      have hstep : nlStep (F.take R) i st = nlStep F i st := by
        unfold nlStep
        have hgi : (F.take R).getD i 0 = F.getD i 0 := by
          rw [List.getD_eq_getElem?_getD, List.getD_eq_getElem?_getD,
            List.getElem?_take_of_lt (by omega)]
        have hgi1 : (F.take R).getD (i - 1) 0 = F.getD (i - 1) 0 := by
          rw [List.getD_eq_getElem?_getD, List.getD_eq_getElem?_getD,
            List.getElem?_take_of_lt (by omega)]
        rw [hgi, hgi1]
      rw [hstep]
      exact ih (i + 1) (nlStep F i st) (by omega)
    · rw [nlScan_done _ s i st (by omega), nlScan_done _ s i st (by omega)]

/-- Splitting the reference stack at an intermediate offset `A`: the
records above `A` sit on top of the reference stack up to `A`. -/
theorem refTail_split (F : List Byte) (len A B : Nat) (hA : 1 ≤ A)
    (hAB : A ≤ B) :
    refTail F len B = nlScan F B (A + 1) [] ++ refTail F len A := by
  unfold refTail
  have hb0 : (fileInit F len).1 ≤ 2 := by
    rcases fileInit_fst F len with h | h
    · omega
    · omega
  rw [nlScan_split F B (A + 1 - (fileInit F len).1) (fileInit F len).1 A
    (fileInit F len).2 (by omega) (by omega) hAB]
  exact nlScan_acc F B (B + 1 - (A + 1)) (A + 1) _ (by omega)

/-- A width-2 corner record implies a window of at least two bytes. -/
theorem fileInit_fst_two (F : List Byte) (len : Nat)
    (h : (fileInit F len).1 = 2) : 2 ≤ len := by
  unfold fileInit at h
  split at h
  · cases h
  · split at h
    · rename_i hpair
      simp only [Bool.and_eq_true, decide_eq_true_eq] at hpair
      exact hpair.1.1
    · cases h

/-- The corner stack satisfies the scan invariant: descending below the
initial scan index, and no `\r\n` pair straddles the head record. -/
theorem fileInit_stkInv (W : List Byte) (len : Nat) (hlen : W.length = len) :
    stackOk (fileInit W len).2 (fileInit W len).1 ∧
    ∀ q ∈ (fileInit W len).2, q.1 = (fileInit W len).1 - 1 →
      ¬(W.getD ((fileInit W len).1 - 1) 0 = 13 ∧
        W.getD (fileInit W len).1 0 = 10) := by
  unfold fileInit
  split
  · rename_i h10
    simp only [beq_iff_eq] at h10
    refine ⟨⟨by omega, trivial⟩, ?_⟩
    intro q hq hq1
    rintro ⟨h13, -⟩
    simp only at h13
    rw [h10] at h13
    exact absurd h13 (by decide)
  · split
    · refine ⟨⟨by omega, trivial⟩, ?_⟩
      intro q hq hq1
      simp only [List.mem_singleton] at hq
      rw [hq] at hq1
      simp only at hq1
      exact absurd hq1 (by decide)
    · rename_i h10 hpair
      refine ⟨⟨by omega, trivial⟩, ?_⟩
      intro q hq hq1
      rintro ⟨h13, hn10⟩
      simp only at h13 hn10
      rcases Nat.lt_or_ge len 2 with hlen2 | hlen2
      · have : W.getD 1 0 = 0 := by
          rw [List.getD_eq_getElem?_getD]
          rw [List.getElem?_eq_none (by omega)]
          rfl
        rw [this] at hn10
        exact absurd hn10 (by decide)
      · have : (decide (2 ≤ len) && W.getD 0 0 == 13 &&
            W.getD 1 0 == 10) = true := by
          simp only [Bool.and_eq_true, decide_eq_true_eq, beq_iff_eq]
          exact ⟨⟨hlen2, h13⟩, hn10⟩
        exact absurd this (by simpa using hpair)

/-- Translating a stack by a zero offset is the identity. -/
theorem map_add_zero_stack (st : List (Nat × Nat)) :
    st.map (fun q => (q.1 + 0, q.2)) = st := by
  induction st with
  | nil => rfl
  | cons q rest ih =>
    simp only [List.map_cons, ih]
    rfl

/-- `findLogEntries` away from the file start: catalogue from index 1 with
no corner record, then traverse from `lastLePos = bufLen`. -/
theorem findLogEntries_eq_pos (buf : List Byte) (A : Nat) (sp np : Nat)
    (re : Regexp) (fmt : TimeFormat) (ft ut : Time) (rgx : List Regexp)
    (hA : 1 ≤ A) :
    findLogEntries buf (Int.ofNat A) sp np re fmt ft ut rgx =
      fleLoop buf re fmt ft ut rgx
        (nlScan buf (if sp < buf.length - 1 then sp + 1 else sp) 1 [])
        buf.length np [] := by
  unfold findLogEntries
  simp only [Int.ofNat_eq_coe]
  rw [if_neg (by omega : ¬((A : Int) < 0))]
  have hne : ((A : Int) == 0) = false := by
    rw [beq_eq_false_iff_ne]
    omega
  simp only [hne, Bool.false_eq_true, if_false]

/-- `findLogEntries` at the file start: catalogue from the corner record,
then traverse from `lastLePos = bufLen`. -/
theorem findLogEntries_eq_zero (buf : List Byte) (sp np : Nat)
    (re : Regexp) (fmt : TimeFormat) (ft ut : Time) (rgx : List Regexp) :
    findLogEntries buf (Int.ofNat 0) sp np re fmt ft ut rgx =
      fleLoop buf re fmt ft ut rgx
        (nlScan buf (if sp < buf.length - 1 then sp + 1 else sp)
          (fileInit buf buf.length).1 (fileInit buf buf.length).2)
        buf.length np [] := by
  unfold findLogEntries fileInit
  rfl

/-- One driver iteration, seen through the reference scan: a
`findLogEntries` call on the window `[A, A+d+lastLePos)` with scan
parameter `d - 1` and carried `lastNlPos + d` computes exactly the
traversal of the reference records of scan range `(A, A+d]` (with the
file-start corner when `A = 0`), translated by `A`; the returned state is
bounded and a returned `lastLePos' = 0` pins a `\r` byte at offset `A`. -/
theorem findLogEntries_ref (F : List Byte) (L : Nat) (re : Regexp)
    (fmt : TimeFormat) (ft ut : Time) (rgx : List Regexp)
    (hLF : F.length = L) (A d lastLePos lastNlPos : Nat)
    (hd : 1 ≤ d) (hRL : A + (d + lastLePos) ≤ L)
    (hnl : lastNlPos ≤ lastLePos)
    (hvi : lastLePos = 0 → F.getD (A + d) 0 ≠ 10) :
    ∃ l' n' ab err out,
      findLogEntries (subslice F A (A + (d + lastLePos))) (Int.ofNat A)
          (d - 1) (lastNlPos + d) re fmt ft ut rgx =
        (l', n', ab, err, out) ∧
      fleLoop F re fmt ft ut rgx
          (if A = 0 then refTail F L (A + d) else nlScan F (A + d) (A + 1) [])
          (A + d + lastLePos) (A + d + lastNlPos) [] =
        (A + l', A + n', ab, err, out) ∧
      n' ≤ l' ∧ l' ≤ d + lastLePos ∧
      (l' = 0 → 1 ≤ A → F.getD A 0 = 13) := by
  have hWlen : (subslice F A (A + (d + lastLePos))).length = d + lastLePos := by
    rw [subslice_length (by omega) (by omega)]
    omega
  by_cases hA : 1 ≤ A
  · -- away from the file start: no corner, fresh stack from index 1
    rw [findLogEntries_eq_pos _ A _ _ re fmt ft ut rgx hA]
    rw [if_neg (by omega : ¬(A = 0))]
    rw [hWlen]
    by_cases hlp : 1 ≤ lastLePos
    · rw [if_pos (by omega : d - 1 < d + lastLePos - 1)]
      have hd1 : d - 1 + 1 = d := by omega
      rw [hd1]
      have hstk := @nlScan_shift F A (d + lastLePos) d (by omega) (by omega)
        d 1 [] (by omega) (by omega)
      rw [List.map_nil] at hstk
      rcases hrun : fleLoop (subslice F A (A + (d + lastLePos))) re fmt ft ut
          rgx (nlScan (subslice F A (A + (d + lastLePos))) d 1 [])
          (d + lastLePos) (lastNlPos + d) [] with ⟨l', n', ab, err, out⟩
      have hbnd : ∀ q ∈ nlScan (subslice F A (A + (d + lastLePos))) d 1 [],
          q.1 + q.2 ≤ d + lastLePos ∧ q.1 ≤ d + lastLePos := by
        intro q hq
        rcases nlScan_mem _ d d 1 [] q (by omega) (by omega) hq with
          h | h | h
        · cases h
        · obtain ⟨h1, -, h3, h4⟩ := h
          omega
        · obtain ⟨h1, -, -, h4, h5⟩ := h
          omega
      have hfs := @fleLoop_shift F A (d + lastLePos) re fmt ft ut rgx
        (by omega) (nlScan (subslice F A (A + (d + lastLePos))) d 1 [])
        (d + lastLePos) (lastNlPos + d) [] hbnd (le_refl _) (by omega)
      rw [hrun] at hfs
      dsimp only at hfs
      have hok : stackOk (nlScan (subslice F A (A + (d + lastLePos))) d 1 [])
          (d + 1) := nlScan_stackOk _ d d 1 [] (by omega) (by omega)
        (by omega) trivial (fun q hq => absurd hq (List.not_mem_nil q))
      have hsl := fleLoop_state_le (subslice F A (A + (d + lastLePos))) re
        fmt ft ut rgx (nlScan (subslice F A (A + (d + lastLePos))) d 1 [])
        (d + lastLePos) (lastNlPos + d) [] (stackOk_mono hok (by omega))
        (by omega)
      rw [hrun] at hsl
      dsimp only at hsl
      refine ⟨l', n', ab, err, out, rfl, ?_, hsl.1, hsl.2.1, ?_⟩
      · have h1 : A + d + lastLePos = A + (d + lastLePos) := by omega
        have h2 : A + d + lastNlPos = A + (lastNlPos + d) := by omega
        rw [h1, h2, hstk, hfs]
        have h4 : l' + A = A + l' := by omega
        have h5 : n' + A = A + n' := by omega
        rw [h4, h5]
      · intro h0 hA'
        rcases hsl.2.2 with hl | ⟨w, hmem⟩
        · exfalso
          omega
        · rw [h0] at hmem
          rcases nlScan_mem _ d d 1 [] (0, w) (by omega) (by omega) hmem with
            h | h | h
          · cases h
          · exact absurd h.2.2.1 (by omega)
          · have hgd := h.2.1
            rw [subslice_getD (by omega) (by omega)] at hgd
            exact hgd
    · have hlp0 : lastLePos = 0 := by omega
      rw [if_neg (by omega : ¬(d - 1 < d + lastLePos - 1))]
      have hstk := @nlScan_shift F A (d + lastLePos) (d - 1) (by omega)
        (by omega) d 1 [] (by omega) (by omega)
      rw [List.map_nil] at hstk
      have hgap : nlScan F (A + d) (A + 1) [] =
          nlScan F (A + (d - 1)) (A + 1) [] := by
        have h1 : A + (d - 1) = A + d - 1 := by omega
        rw [h1]
        exact nlScan_top_miss F (A + d) (A + 1) [] (hvi hlp0) (by omega)
          (by omega)
      rcases hrun : fleLoop (subslice F A (A + (d + lastLePos))) re fmt ft ut
          rgx (nlScan (subslice F A (A + (d + lastLePos))) (d - 1) 1 [])
          (d + lastLePos) (lastNlPos + d) [] with ⟨l', n', ab, err, out⟩
      have hbnd : ∀ q ∈ nlScan (subslice F A (A + (d + lastLePos)))
          (d - 1) 1 [], q.1 + q.2 ≤ d + lastLePos ∧ q.1 ≤ d + lastLePos := by
        intro q hq
        rcases nlScan_mem _ (d - 1) (d - 1) 1 [] q (by omega) (by omega) hq
          with h | h | h
        · cases h
        · obtain ⟨h1, -, h3, h4⟩ := h
          omega
        · obtain ⟨h1, -, -, h4, h5⟩ := h
          omega
      have hfs := @fleLoop_shift F A (d + lastLePos) re fmt ft ut rgx
        (by omega) (nlScan (subslice F A (A + (d + lastLePos))) (d - 1) 1 [])
        (d + lastLePos) (lastNlPos + d) [] hbnd (le_refl _) (by omega)
      rw [hrun] at hfs
      dsimp only at hfs
      have hok : stackOk (nlScan (subslice F A (A + (d + lastLePos)))
          (d - 1) 1 []) (d - 1 + 1) := nlScan_stackOk _ (d - 1) (d - 1) 1 []
        (by omega) (by omega) (by omega) trivial
        (fun q hq => absurd hq (List.not_mem_nil q))
      have hsl := fleLoop_state_le (subslice F A (A + (d + lastLePos))) re
        fmt ft ut rgx (nlScan (subslice F A (A + (d + lastLePos)))
          (d - 1) 1 []) (d + lastLePos) (lastNlPos + d) []
        (stackOk_mono hok (by omega)) (by omega)
      rw [hrun] at hsl
      dsimp only at hsl
      refine ⟨l', n', ab, err, out, rfl, ?_, hsl.1, hsl.2.1, ?_⟩
      · have h1 : A + d + lastLePos = A + (d + lastLePos) := by omega
        have h2 : A + d + lastNlPos = A + (lastNlPos + d) := by omega
        rw [h1, h2, hgap, hstk, hfs]
        have h4 : l' + A = A + l' := by omega
        have h5 : n' + A = A + n' := by omega
        rw [h4, h5]
      · intro h0 hA'
        rcases hsl.2.2 with hl | ⟨w, hmem⟩
        · exfalso
          omega
        · rw [h0] at hmem
          rcases nlScan_mem _ (d - 1) (d - 1) 1 [] (0, w) (by omega)
            (by omega) hmem with h | h | h
          · cases h
          · exact absurd h.2.2.1 (by omega)
          · have hgd := h.2.1
            rw [subslice_getD (by omega) (by omega)] at hgd
            exact hgd
  · -- at the file start: the corner record joins the stack
    have hA0 : A = 0 := by omega
    subst hA0
    rw [findLogEntries_eq_zero]
    rw [if_pos rfl]
    have hWtake : subslice F 0 (0 + (d + lastLePos)) =
        F.take (d + lastLePos) := by
      unfold subslice
      simp
    have hfi : fileInit (subslice F 0 (0 + (d + lastLePos)))
        (subslice F 0 (0 + (d + lastLePos))).length = fileInit F L := by
      rw [hWlen, hWtake]
      apply fileInit_take F L (d + lastLePos) (by omega) (by omega) hLF
      intro h13 h10
      by_contra hc
      have hll0 : lastLePos = 0 := by omega
      have hx := hvi hll0
      have h01 : (0 : Nat) + d = 1 := by omega
      rw [h01] at hx
      exact hx h10
    rw [hfi, hWlen]
    have hfiF := fileInit_stkInv F L hLF
    have hb12 := fileInit_fst F L
    by_cases hlp : 1 ≤ lastLePos
    · rw [if_pos (by omega : d - 1 < d + lastLePos - 1)]
      have hd1 : d - 1 + 1 = d := by omega
      rw [hd1]
      have hscan : nlScan (subslice F 0 (0 + (d + lastLePos))) d
          (fileInit F L).1 (fileInit F L).2 =
          nlScan F d (fileInit F L).1 (fileInit F L).2 := by
        rw [hWtake]
        exact nlScan_take F (d + lastLePos) d (by omega) (d + 1) _ _
          (by omega)
      rw [hscan]
      rcases hrun : fleLoop (subslice F 0 (0 + (d + lastLePos))) re fmt ft ut
          rgx (nlScan F d (fileInit F L).1 (fileInit F L).2)
          (d + lastLePos) (lastNlPos + d) [] with ⟨l', n', ab, err, out⟩
      have hbnd : ∀ q ∈ nlScan F d (fileInit F L).1 (fileInit F L).2,
          q.1 + q.2 ≤ d + lastLePos ∧ q.1 ≤ d + lastLePos := by
        intro q hq
        rcases nlScan_mem F d (d + 1) (fileInit F L).1 (fileInit F L).2 q
          (by omega) (by omega) hq with h | h | h
        · have hq' : q ∈ (fileInit (subslice F 0 (0 + (d + lastLePos)))
              (subslice F 0 (0 + (d + lastLePos))).length).2 := by
            rw [hfi]
            exact h
          have hsnd := fileInit_snd _ _ q hq'
          rw [hWlen] at hsnd
          obtain ⟨hq1, hq2, hq3⟩ := hsnd
          rcases Nat.lt_or_ge q.2 2 with hw | hw
          · omega
          · have : q.2 = 2 := by omega
            have := hq3 this
            omega
        · obtain ⟨h1, -, h3, h4⟩ := h
          omega
        · obtain ⟨h1, -, -, h4, h5⟩ := h
          omega
      have hfs := @fleLoop_shift F 0 (d + lastLePos) re fmt ft ut rgx
        (by omega) (nlScan F d (fileInit F L).1 (fileInit F L).2)
        (d + lastLePos) (lastNlPos + d) [] hbnd (le_refl _) (by omega)
      rw [map_add_zero_stack] at hfs
      rw [hrun] at hfs
      dsimp only at hfs
      have hok : stackOk (nlScan F d (fileInit F L).1 (fileInit F L).2)
          (d + 1) := nlScan_stackOk F d (d + 1) (fileInit F L).1
        (fileInit F L).2 (by omega)
        (by rcases hb12 with h | h <;> omega)
        (by rcases hb12 with h | h <;> omega) hfiF.1 hfiF.2
      have hsl := fleLoop_state_le (subslice F 0 (0 + (d + lastLePos))) re
        fmt ft ut rgx (nlScan F d (fileInit F L).1 (fileInit F L).2)
        (d + lastLePos) (lastNlPos + d) [] (stackOk_mono hok (by omega))
        (by omega)
      rw [hrun] at hsl
      dsimp only at hsl
      refine ⟨l', n', ab, err, out, rfl, ?_, hsl.1, hsl.2.1,
        fun _ h => absurd h (by omega)⟩
      simp only [Nat.zero_add] at hfs ⊢
      simp only [Nat.add_zero] at hfs
      unfold refTail
      have hdn : d + lastNlPos = lastNlPos + d := by omega
      rw [hdn]
      exact hfs
    · have hlp0 : lastLePos = 0 := by omega
      rw [if_neg (by omega : ¬(d - 1 < d + lastLePos - 1))]
      have hb0d : (fileInit F L).1 ≤ d := by
        rcases hb12 with h | h
        · omega
        · have h2 : (fileInit (subslice F 0 (0 + (d + lastLePos)))
              (subslice F 0 (0 + (d + lastLePos))).length).1 = 2 := by
            rw [hfi]
            exact h
          have := fileInit_fst_two _ _ h2
          rw [hWlen] at this
          omega
      have hscan : nlScan (subslice F 0 (0 + (d + lastLePos))) (d - 1)
          (fileInit F L).1 (fileInit F L).2 =
          nlScan F (d - 1) (fileInit F L).1 (fileInit F L).2 := by
        rw [hWtake]
        exact nlScan_take F (d + lastLePos) (d - 1) (by omega) d _ _
          (by omega)
      rw [hscan]
      have hgap : nlScan F d (fileInit F L).1 (fileInit F L).2 =
          nlScan F (d - 1) (fileInit F L).1 (fileInit F L).2 := by
        have h10 : F.getD d 0 ≠ 10 := by
          have hx := hvi hlp0
          have h01 : (0 : Nat) + d = d := by omega
          rw [h01] at hx
          exact hx
        exact nlScan_top_miss F d (fileInit F L).1 (fileInit F L).2 h10
          (by omega) hb0d
      rcases hrun : fleLoop (subslice F 0 (0 + (d + lastLePos))) re fmt ft ut
          rgx (nlScan F (d - 1) (fileInit F L).1 (fileInit F L).2)
          (d + lastLePos) (lastNlPos + d) [] with ⟨l', n', ab, err, out⟩
      have hbnd : ∀ q ∈ nlScan F (d - 1) (fileInit F L).1 (fileInit F L).2,
          q.1 + q.2 ≤ d + lastLePos ∧ q.1 ≤ d + lastLePos := by
        intro q hq
        rcases nlScan_mem F (d - 1) d (fileInit F L).1 (fileInit F L).2 q
          (by omega) (by omega) hq with h | h | h
        · have hq' : q ∈ (fileInit (subslice F 0 (0 + (d + lastLePos)))
              (subslice F 0 (0 + (d + lastLePos))).length).2 := by
            rw [hfi]
            exact h
          have hsnd := fileInit_snd _ _ q hq'
          rw [hWlen] at hsnd
          obtain ⟨hq1, hq2, hq3⟩ := hsnd
          rcases Nat.lt_or_ge q.2 2 with hw | hw
          · omega
          · have : q.2 = 2 := by omega
            have := hq3 this
            omega
        · obtain ⟨h1, -, h3, h4⟩ := h
          omega
        · obtain ⟨h1, -, -, h4, h5⟩ := h
          omega
      have hfs := @fleLoop_shift F 0 (d + lastLePos) re fmt ft ut rgx
        (by omega) (nlScan F (d - 1) (fileInit F L).1 (fileInit F L).2)
        (d + lastLePos) (lastNlPos + d) [] hbnd (le_refl _) (by omega)
      rw [map_add_zero_stack] at hfs
      rw [hrun] at hfs
      dsimp only at hfs
      have hok : stackOk (nlScan F (d - 1) (fileInit F L).1
          (fileInit F L).2) (d - 1 + 1) := nlScan_stackOk F (d - 1) d
        (fileInit F L).1 (fileInit F L).2 (by omega)
        (by rcases hb12 with h | h <;> omega) (by omega) hfiF.1 hfiF.2
      have hsl := fleLoop_state_le (subslice F 0 (0 + (d + lastLePos))) re
        fmt ft ut rgx (nlScan F (d - 1) (fileInit F L).1 (fileInit F L).2)
        (d + lastLePos) (lastNlPos + d) [] (stackOk_mono hok (by omega))
        (by omega)
      rw [hrun] at hsl
      dsimp only at hsl
      refine ⟨l', n', ab, err, out, rfl, ?_, hsl.1, hsl.2.1,
        fun _ h => absurd h (by omega)⟩
      simp only [Nat.zero_add] at hfs ⊢
      simp only [Nat.add_zero] at hfs
      unfold refTail
      rw [hgap]
      have hdn : d + lastNlPos = lastNlPos + d := by omega
      rw [hdn]
      exact hfs

/-- Dropping exactly the first summand of an append. -/
theorem drop_append_length_eq {l1 l2 : List Byte} {n : Nat}
    (h : l1.length = n) : (l1 ++ l2).drop n = l2 := by
  rw [← h, List.drop_left]

/-- A read fully inside the file delivers exactly `n` bytes. -/
theorem readInto_full (f : List Byte) (off : Nat) (dest : List Byte)
    (n : Nat) (h : off + n ≤ f.length) :
    readInto f off dest n = readAt f off n ++ dest.drop n := by
  unfold readInto
  dsimp only
  have hr : (readAt f off n).length = n := by
    rw [readAt_length]
    omega
  rw [hr]

/-- A full read as a slice of the logical file. -/
theorem readAt_subslice_take (f F : List Byte) (L : Nat)
    (hF : F = f.take L) (off n : Nat) (h : off + n ≤ L) :
    readAt f off n = subslice F off (off + n) := by
  have hcongr : f.take L = F.take L := by
    rw [hF, List.take_take, min_self]
  rw [readAt_take_congr off n hcongr h, readAt_eq_subslice]

/-- The shift-and-refill step under the driver invariant: the new window
is the slice `[B - shift, B + lastLePos)` of the logical file (clamped at
file start), with scan budget and newline carry shifted by the bytes
actually read. -/
theorem shiftAndRead_ref (f F : List Byte) (L : Nat) (hF : F = f.take L)
    (hLf : L ≤ f.length) (buf : List Byte)
    (lastLePos lastNlPos B : Nat)
    (hi : buf.take lastLePos = subslice F B (B + lastLePos))
    (hBL : B + lastLePos ≤ L) (hB : 1 ≤ B)
    (hlt : lastLePos < buf.length) :
    shiftAndRead f buf lastLePos lastNlPos B =
      ShiftRead.mk
        (subslice F (B - (buf.length - lastLePos))
          ((B - (buf.length - lastLePos)) +
            (min (buf.length - lastLePos) B + lastLePos)))
        (min (buf.length - lastLePos) B - 1)
        (lastNlPos + min (buf.length - lastLePos) B)
        (B - (buf.length - lastLePos)) := by
  have hFlen : F.length = L := by
    rw [hF, List.length_take]
    omega
  have htake : (buf.take (buf.length - lastLePos)).length =
      buf.length - lastLePos := by
    rw [List.length_take]
    omega
  unfold shiftAndRead
  dsimp only
  split
  · -- the read would pass the file start: truncate on the left
    rename_i htr
    have hmin : min (buf.length - lastLePos) B = B := by omega
    have hsub : B - (buf.length - lastLePos) = 0 := by omega
    have hdrop1 : (buf.take (buf.length - lastLePos) ++
        buf.take lastLePos).drop (buf.length - lastLePos - B) =
        (buf.take (buf.length - lastLePos)).drop
          (buf.length - lastLePos - B) ++ buf.take lastLePos := by
      exact List.drop_append_of_le_length (by omega)
    have hlen2 : ((buf.take (buf.length - lastLePos)).drop
        (buf.length - lastLePos - B)).length = B := by
      rw [List.length_drop, htake]
      omega
    have hread : buf.length - (buf.length - lastLePos - B) - lastLePos =
        B := by
      omega
    rw [hread, hdrop1]
    rw [readInto_full f 0 _ B (by omega)]
    have hdrop2 : ((buf.take (buf.length - lastLePos)).drop
        (buf.length - lastLePos - B) ++ buf.take lastLePos).drop B =
        buf.take lastLePos := drop_append_length_eq hlen2
    rw [hdrop2, hi]
    rw [readAt_subslice_take f F L hF 0 B (by omega)]
    have hadj : subslice F 0 (0 + B) ++ subslice F B (B + lastLePos) =
        subslice F 0 (B + lastLePos) := by
      have h0B : (0 : Nat) + B = B := by omega
      rw [h0B]
      exact subslice_append_adjacent (by omega) (by omega) (by omega)
    rw [hadj]
    simp only [ShiftRead.mk.injEq]
    refine ⟨?_, ?_, ?_, ?_⟩
    · rw [hmin, hsub]
      congr 1
      omega
    all_goals
      first
      | trivial
      | omega
  · -- the whole read stays inside the file
    rename_i htr
    have hmin : min (buf.length - lastLePos) B = buf.length - lastLePos := by
      omega
    rw [readInto_full f (B - (buf.length - lastLePos)) _
      (buf.length - lastLePos) (by omega)]
    have hdrop : (buf.take (buf.length - lastLePos) ++
        buf.take lastLePos).drop (buf.length - lastLePos) =
        buf.take lastLePos := drop_append_length_eq htake
    rw [hdrop, hi]
    rw [readAt_subslice_take f F L hF (B - (buf.length - lastLePos))
      (buf.length - lastLePos) (by omega)]
    have hmid : B - (buf.length - lastLePos) + (buf.length - lastLePos) =
        B := by omega
    rw [hmid]
    have hadj : subslice F (B - (buf.length - lastLePos)) B ++
        subslice F B (B + lastLePos) =
        subslice F (B - (buf.length - lastLePos)) (B + lastLePos) := by
      exact subslice_append_adjacent (by omega) (by omega) (by omega)
    rw [hadj]
    simp only [ShiftRead.mk.injEq]
    refine ⟨?_, ?_, ?_, ?_⟩
    · rw [hmin]
      congr 1
      omega
    all_goals
      first
      | trivial
      | omega

/-- The grow-and-refill step under the driver invariant: it always
succeeds below `MaxBufLen`, and the new window is the slice
`[B - nAdded, B + bufLen)` of the logical file (clamped at file start). -/
theorem growAndRead_ref (f F : List Byte) (L : Nat) (hF : F = f.take L)
    (hLf : L ≤ f.length) (buf : List Byte) (lastNlPos B maxBufLen : Nat)
    (hi : buf = subslice F B (B + buf.length))
    (hBL : B + buf.length ≤ L) (hB : 1 ≤ B) (hlen : 1 ≤ buf.length)
    (hmax : L ≤ maxBufLen) :
    ∃ nA, 1 ≤ nA ∧
      growAndRead f maxBufLen buf lastNlPos B = .ok
        (GrowRead.mk
          (subslice F (B - nA) ((B - nA) + (min nA B + buf.length)))
          (min nA B) (min nA B - 1) (lastNlPos + min nA B) (B - nA)) := by
  have hFlen : F.length = L := by
    rw [hF, List.length_take]
    omega
  have hfl : ¬(maxBufLen ≤ buf.length) := by omega
  have hne : (buf.length == 0) = false := by
    simp only [beq_eq_false_iff_ne, Ne]
    omega
  have hinc : increaseBufLen maxBufLen buf = .ok
      (min (buf.length * 2) maxBufLen - buf.length,
       List.replicate (min (buf.length * 2) maxBufLen - buf.length) 0 ++
         buf) := by
    unfold increaseBufLen
    rw [if_neg hfl]
    simp only [hne, Bool.false_eq_true, if_false]
  refine ⟨min (buf.length * 2) maxBufLen - buf.length, by omega, ?_⟩
  unfold growAndRead
  rw [hinc]
  dsimp only
  split
  · -- the read would pass the file start: shrink the added span
    rename_i htr
    have hmin : min (min (buf.length * 2) maxBufLen - buf.length) B = B := by
      omega
    have hdrop1 : (List.replicate
        (min (buf.length * 2) maxBufLen - buf.length) 0 ++ buf).drop
        (min (buf.length * 2) maxBufLen - buf.length - B) =
        List.replicate B 0 ++ buf := by
      rw [List.drop_append_of_le_length (by simp)]
      rw [List.drop_replicate]
      have hcount : min (buf.length * 2) maxBufLen - buf.length -
          (min (buf.length * 2) maxBufLen - buf.length - B) = B := by
        omega
      rw [hcount]
    rw [hdrop1]
    rw [readInto_full f 0 _ B (by omega)]
    have hdrop2 : (List.replicate B (0 : Byte) ++ buf).drop B = buf :=
      drop_append_length_eq (by simp)
    rw [hdrop2]
    rw [readAt_subslice_take f F L hF 0 B (by omega)]
    simp only [Except.ok.injEq, GrowRead.mk.injEq]
    refine ⟨?_, ?_, ?_, ?_, ?_⟩
    · have hadj : subslice F 0 B ++ subslice F B (B + buf.length) =
          subslice F 0 (B + buf.length) :=
        subslice_append_adjacent (by omega) (by omega) (by omega)
      rw [← hi] at hadj
      have h0B : (0 : Nat) + B = B := by omega
      rw [h0B, hadj]
      have hsub : B - (min (buf.length * 2) maxBufLen - buf.length) = 0 := by
        omega
      rw [hmin, hsub]
      congr 1
      omega
    all_goals
      first
      | trivial
      | omega
  · -- the whole read stays inside the file
    rename_i htr
    have hmin : min (min (buf.length * 2) maxBufLen - buf.length) B =
        min (buf.length * 2) maxBufLen - buf.length := by omega
    rw [readInto_full f (B - (min (buf.length * 2) maxBufLen - buf.length))
      _ (min (buf.length * 2) maxBufLen - buf.length) (by omega)]
    have hdrop : (List.replicate
        (min (buf.length * 2) maxBufLen - buf.length) 0 ++ buf).drop
        (min (buf.length * 2) maxBufLen - buf.length) = buf :=
      drop_append_length_eq (by simp)
    rw [hdrop]
    rw [readAt_subslice_take f F L hF
      (B - (min (buf.length * 2) maxBufLen - buf.length))
      (min (buf.length * 2) maxBufLen - buf.length) (by omega)]
    simp only [Except.ok.injEq, GrowRead.mk.injEq]
    refine ⟨?_, ?_, ?_, ?_, ?_⟩
    · have hadj : subslice F (B - (min (buf.length * 2) maxBufLen -
          buf.length)) B ++ subslice F B (B + buf.length) =
          subslice F (B - (min (buf.length * 2) maxBufLen - buf.length))
            (B + buf.length) :=
        subslice_append_adjacent (by omega) (by omega) (by omega)
      rw [← hi] at hadj
      have hmid : B - (min (buf.length * 2) maxBufLen - buf.length) +
          (min (buf.length * 2) maxBufLen - buf.length) = B := by omega
      rw [hmid, hadj]
      rw [hmin]
      congr 1
      omega
    all_goals
      first
      | trivial
      | omega

/-- Folding one driver iteration into the reference run: given the
iteration's translated result (from `findLogEntries_ref`) and the
induction hypothesis for smaller offsets, the driver's dispatch of that
result equals the assembled reference run from the pre-iteration state. -/
theorem rsLoop_ref_cont_err (f F : List Byte) (L : Nat) (re : Regexp)
    (fmt : TimeFormat) (ft ut : Time) (rgx : List Regexp) (maxBufLen : Nat)
    (hF : F = f.take L) (hLf : L ≤ f.length)
    (B : Nat) (acc : List (List Byte)) (A d ll lastNlPos : Nat)
    (hAd : A + d = B) (hd : 1 ≤ d)
    (l' n' : Nat) (ab : Bool) (e : RSError) (out : List (List Byte))
    (href : fleLoop F re fmt ft ut rgx
        (if A = 0 then refTail F L (A + d) else nlScan F (A + d) (A + 1) [])
        (A + d + ll) (A + d + lastNlPos) [] =
      (A + l', A + n', ab, some e, out)) :
    ((-1 : Int), some e, acc ++ out) =
      assembleRef L (fleLoop F re fmt ft ut rgx (refTail F L B)
        (B + ll) (B + lastNlPos) acc) := by
  have hacc := fleLoop_acc F re fmt ft ut rgx
    (if A = 0 then refTail F L (A + d) else nlScan F (A + d) (A + 1) [])
    (A + d + ll) (A + d + lastNlPos) acc
  rw [href] at hacc
  dsimp only at hacc
  by_cases hA0 : A = 0
  · subst hA0
    rw [if_pos rfl] at hacc
    rw [← hAd]
    rw [hacc]
    rfl
  · have hA1 : 1 ≤ A := by omega
    rw [if_neg hA0] at hacc
    rw [hAd] at hacc
    have hsplit := refTail_split F L A B hA1 (by omega)
    have hstop := fleLoop_append_stop F re fmt ft ut rgx
      (nlScan F B (A + 1) []) (refTail F L A) (B + ll) (B + lastNlPos)
      acc (A + l') (A + n') ab (some e) (acc ++ out) hacc
      (Or.inr (by simp))
    rw [hsplit, hstop]
    rfl

/-- Folding one clean driver iteration into the reference run: given the
iteration's translated result (from `findLogEntries_ref`) and the
induction hypothesis for smaller offsets, the driver's continuation on
that result equals the assembled reference run from the pre-iteration
state. -/
theorem rsLoop_ref_cont_ok (f F : List Byte) (L : Nat) (re : Regexp)
    (fmt : TimeFormat) (ft ut : Time) (rgx : List Regexp) (maxBufLen : Nat)
    (hF : F = f.take L) (hLf : L ≤ f.length)
    (B fuel : Nat) (acc : List (List Byte)) (A d ll lastNlPos : Nat)
    (hAd : A + d = B) (hd : 1 ≤ d) (hll : A + d + ll ≤ L)
    (hfuel : B ≤ fuel + 1)
    (l' n' : Nat) (ab : Bool) (out : List (List Byte))
    (href : fleLoop F re fmt ft ut rgx
        (if A = 0 then refTail F L (A + d) else nlScan F (A + d) (A + 1) [])
        (A + d + ll) (A + d + lastNlPos) [] = (A + l', A + n', ab, none, out))
    (hnl' : n' ≤ l') (hle' : l' ≤ d + ll)
    (hbyte : l' = 0 → 1 ≤ A → F.getD A 0 = 13)
    (hIH : ∀ B', B' < B → ∀ (fuel : Nat) (buf : List Byte)
      (lastLePos lastNlPos : Nat) (acc : List (List Byte)),
      1 ≤ B' → B' ≤ fuel →
      buf.take lastLePos = subslice F B' (B' + lastLePos) →
      B' + lastLePos ≤ L → lastNlPos ≤ lastLePos → lastLePos ≤ buf.length →
      1 ≤ buf.length → (lastLePos = 0 → F.getD B' 0 ≠ 10) →
      rsLoop f re fmt ft ut rgx maxBufLen L fuel buf B' lastLePos
          lastNlPos false acc =
        assembleRef L (fleLoop F re fmt ft ut rgx (refTail F L B')
          (B' + lastLePos) (B' + lastNlPos) acc)) :
    rsLoop f re fmt ft ut rgx maxBufLen L fuel
        (subslice F A (A + (d + ll))) A l' n' ab (acc ++ out) =
      assembleRef L (fleLoop F re fmt ft ut rgx (refTail F L B)
        (B + ll) (B + lastNlPos) acc) := by
  have hFlen : F.length = L := by
    rw [hF, List.length_take]
    omega
  have hacc := fleLoop_acc F re fmt ft ut rgx
    (if A = 0 then refTail F L (A + d) else nlScan F (A + d) (A + 1) [])
    (A + d + ll) (A + d + lastNlPos) acc
  rw [href] at hacc
  dsimp only at hacc
  by_cases hA0 : A = 0
  · subst hA0
    rw [if_pos rfl] at hacc
    rw [← hAd]
    rw [hacc]
    rw [rsLoop.eq_def]
    rw [if_neg (by simp)]
    unfold assembleRef
    dsimp only
    simp only [Nat.zero_add]
  · have hA1 : 1 ≤ A := by omega
    rw [if_neg hA0] at hacc
    rw [hAd] at hacc
    have hsplit := refTail_split F L A B hA1 (by omega)
    cases ab with
    | true =>
      rw [rsLoop_abort_exit]
      have hstop := fleLoop_append_stop F re fmt ft ut rgx
        (nlScan F B (A + 1) []) (refTail F L A) (B + ll) (B + lastNlPos)
        acc (A + l') (A + n') true none (acc ++ out) hacc (Or.inl rfl)
      rw [hsplit, hstop]
      unfold assembleRef rsLoopPost
      dsimp only
      rw [if_neg (by simp)]
    | false =>
      have hWlen : (subslice F A (A + (d + ll))).length = d + ll := by
        rw [subslice_length (by omega) (by omega)]
        omega
      rw [hIH A (by omega) fuel (subslice F A (A + (d + ll))) l' n'
        (acc ++ out) hA1 (by omega) (subslice_take hle') (by omega) hnl'
        (by rw [hWlen]; exact hle') (by rw [hWlen]; omega)
        (fun h => by
          rw [hbyte h hA1]
          decide)]
      have hok := fleLoop_append_ok F re fmt ft ut rgx
        (nlScan F B (A + 1) []) (refTail F L A) (B + ll) (B + lastNlPos)
        acc (A + l') (A + n') (acc ++ out) hacc
      rw [hsplit, hok]

/-- The driver loop against the reference run: from any properly aligned
state at file offset `B ≥ 1`, the remaining driver iterations compute the
assembled reference traversal of the records up to scan index `B` from
the translated current state. This is the heart of window-size
independence: the right-hand side does not mention the window at all. -/
theorem rsLoop_ref (f F : List Byte) (L : Nat) (re : Regexp)
    (fmt : TimeFormat) (ft ut : Time) (rgx : List Regexp) (maxBufLen : Nat)
    (hF : F = f.take L) (hLf : L ≤ f.length) (hL1 : 1 ≤ L)
    (hmax : L ≤ maxBufLen) :
    ∀ (B : Nat) (fuel : Nat) (buf : List Byte) (lastLePos lastNlPos : Nat)
      (acc : List (List Byte)),
      1 ≤ B → B ≤ fuel →
      buf.take lastLePos = subslice F B (B + lastLePos) →
      B + lastLePos ≤ L →
      lastNlPos ≤ lastLePos →
      lastLePos ≤ buf.length →
      1 ≤ buf.length →
      (lastLePos = 0 → F.getD B 0 ≠ 10) →
      rsLoop f re fmt ft ut rgx maxBufLen L fuel buf B lastLePos lastNlPos
          false acc =
        assembleRef L (fleLoop F re fmt ft ut rgx (refTail F L B)
          (B + lastLePos) (B + lastNlPos) acc) := by
  have hFlen : F.length = L := by
    rw [hF, List.length_take]
    omega
  intro B
  induction B using Nat.strong_induction_on with
  | _ B ih =>
    intro fuel buf lastLePos lastNlPos acc hB hfuel hi hBL hnl hle hbuf hvi
    rcases fuel with - | fuel
    · exact absurd hB (by omega)
    rw [rsLoop.eq_def]
    rw [if_pos ⟨by omega, rfl⟩]
    dsimp only
    by_cases hlt : lastLePos < buf.length
    · -- shift-and-refill iteration
      rw [if_pos hlt]
      have hsr := shiftAndRead_ref f F L hF hLf buf lastLePos lastNlPos B
        hi hBL hB hlt
      rw [hsr]
      dsimp only
      obtain ⟨l', n', ab, err, out, hfle, href, hnl', hle', hbyte⟩ :=
        findLogEntries_ref F L re fmt ft ut rgx hFlen
          (B - (buf.length - lastLePos)) (min (buf.length - lastLePos) B)
          lastLePos lastNlPos (by omega) (by omega) hnl
          (fun h => by
            have hAd : B - (buf.length - lastLePos) +
                min (buf.length - lastLePos) B = B := by omega
            rw [hAd]
            exact hvi h)
      rw [hfle]
      dsimp only
      cases err with
      | some e =>
        exact rsLoop_ref_cont_err f F L re fmt ft ut rgx maxBufLen hF hLf
          B acc (B - (buf.length - lastLePos))
          (min (buf.length - lastLePos) B) lastLePos lastNlPos (by omega)
          (by omega) l' n' ab e out href
      | none =>
        exact rsLoop_ref_cont_ok f F L re fmt ft ut rgx maxBufLen hF hLf
          B fuel acc (B - (buf.length - lastLePos))
          (min (buf.length - lastLePos) B) lastLePos lastNlPos (by omega)
          (by omega) (by omega) hfuel l' n' ab out href hnl' hle' hbyte
          (fun B' hB' => ih B' hB')
    · rw [if_neg hlt]
      have heq : lastLePos = buf.length := by omega
      rw [if_pos heq]
      rw [heq] at hi hBL hnl ⊢
      rw [List.take_length] at hi
      obtain ⟨nA, hnA1, hgr⟩ := growAndRead_ref f F L hF hLf buf lastNlPos
        B maxBufLen hi hBL hB hbuf hmax
      rw [hgr]
      dsimp only
      obtain ⟨l', n', ab, err, out, hfle, href, hnl', hle', hbyte⟩ :=
        findLogEntries_ref F L re fmt ft ut rgx hFlen (B - nA) (min nA B)
          buf.length lastNlPos (by omega) (by omega) hnl
          (fun h => absurd h (by omega))
      rw [hfle]
      dsimp only
      cases err with
      | some e =>
        exact rsLoop_ref_cont_err f F L re fmt ft ut rgx maxBufLen hF hLf
          B acc (B - nA) (min nA B) buf.length lastNlPos (by omega)
          (by omega) l' n' ab e out href
      | none =>
        exact rsLoop_ref_cont_ok f F L re fmt ft ut rgx maxBufLen hF hLf
          B fuel acc (B - nA) (min nA B) buf.length lastNlPos (by omega)
          (by omega) (by omega) hfuel l' n' ab out href hnl' hle' hbyte
          (fun B' hB' => ih B' hB')

/-- The logical file size never exceeds the file size. -/
theorem strippedFileSize_le (f : List Byte) :
    strippedFileSize f ≤ f.length := by
  unfold strippedFileSize
  dsimp only
  split
  · split
    · omega
    · split
      · omega
      · omega
  · split
    · split
      · omega
      · omega
    · omega

/-- The reference search: one traversal of the whole logical file's
newline records from the file-start corner, assembled exactly as the
driver's post-loop does. Neither the window nor `StartBufLen` appears. -/
def refSearch (f : List Byte) (re : Regexp) (fmt : TimeFormat)
    (ft ut : Time) (rgx : List Regexp) :
    Int × Option RSError × List (List Byte) :=
  if strippedFileSize f < 1 then (1, none, [])
  else
    assembleRef (strippedFileSize f)
      (fleLoop (f.take (strippedFileSize f)) re fmt ft ut rgx
        (refTail (f.take (strippedFileSize f)) (strippedFileSize f)
          (strippedFileSize f))
        (strippedFileSize f) (strippedFileSize f) [])

/-- `ReverseSearch` computes the reference search, for every positive
`StartBufLen`, whenever `MaxBufLen` is at least the logical file size:
the windowed driver loop refines the single whole-file traversal. -/
theorem ReverseSearch_refSearch (sc : SearchCriteria)
    (startBufLen maxBufLen : Nat)
    (h1 : ((!sc.fromTime.isZero || !sc.untilTime.isZero) &&
      sc.leTimeFormat.isNone) = false)
    (h2 : sc.leStartPattern.isNone = false)
    (h3 : ((!sc.fromTime.isZero && !sc.untilTime.isZero) &&
      (sc.fromTime.after sc.untilTime ||
        sc.untilTime.equal sc.fromTime)) = false)
    (rs : List Regexp) (hc : compileCriteriaRegexps sc = some rs)
    (re : Regexp)
    (hre : sc.leStartPattern.bind PatternSrc.compiled = some re)
    (f : List Byte) (hs : 1 ≤ startBufLen)
    (hm : strippedFileSize f ≤ maxBufLen) :
    ReverseSearch (some f) sc startBufLen maxBufLen =
      refSearch f re
        (sc.leTimeFormat.getD (TimeFormat.mk fun _ => Time.mk none))
        sc.fromTime sc.untilTime rs := by
  rw [ReverseSearch_reduce sc startBufLen maxBufLen h1 h2 h3 rs hc re hre f]
  unfold refSearch
  by_cases hL : strippedFileSize f < 1
  · rw [if_pos hL, if_pos hL]
  · rw [if_neg hL, if_neg hL]
    have hL1 : 1 ≤ strippedFileSize f := by omega
    have hLf : strippedFileSize f ≤ f.length := strippedFileSize_le f
    have hinv1 : (List.replicate
        (if strippedFileSize f < startBufLen then strippedFileSize f
         else startBufLen) (0 : Byte)).take 0 =
        subslice (f.take (strippedFileSize f)) (strippedFileSize f)
          (strippedFileSize f + 0) := by
      simp [subslice]
    have hinv4 : 1 ≤ (List.replicate
        (if strippedFileSize f < startBufLen then strippedFileSize f
         else startBufLen) (0 : Byte)).length := by
      rw [List.length_replicate]
      split
      · omega
      · omega
    have hinv6 : (0 : Nat) = 0 →
        (f.take (strippedFileSize f)).getD (strippedFileSize f) 0 ≠ 10 := by
      intro h0
      have hz : (f.take (strippedFileSize f)).getD (strippedFileSize f) 0 =
          0 := by
        rw [List.getD_eq_getElem?_getD,
          List.getElem?_eq_none (by rw [List.length_take]; omega)]
        rfl
      rw [hz]
      decide
    exact rsLoop_ref f (f.take (strippedFileSize f)) (strippedFileSize f)
      re (sc.leTimeFormat.getD (TimeFormat.mk fun _ => Time.mk none))
      sc.fromTime sc.untilTime rs maxBufLen rfl hLf hL1 hm
      (strippedFileSize f) (strippedFileSize f)
      (List.replicate
        (if strippedFileSize f < startBufLen then strippedFileSize f
         else startBufLen) 0) 0 0 [] hL1 (le_refl _) hinv1 (by omega)
      (le_refl 0) (Nat.zero_le _) hinv4 hinv6

/-- C4: for a fixed opened file and fixed criteria passing validation and
compilation, two runs of `ReverseSearch` differing only in a positive
`StartBufLen` (with `MaxBufLen` unchanged and at least the logical file
size) return the same status, the same error, and dispatch the same
entries in the same order: both equal the window-free reference search,
so the whole result triple coincides. -/
theorem claim_C4_window_size_independence (f : List Byte)
    (sc : SearchCriteria) (startBufLen1 startBufLen2 maxBufLen : Nat)
    (h1 : ((!sc.fromTime.isZero || !sc.untilTime.isZero) &&
      sc.leTimeFormat.isNone) = false)
    (h2 : sc.leStartPattern.isNone = false)
    (h3 : ((!sc.fromTime.isZero && !sc.untilTime.isZero) &&
      (sc.fromTime.after sc.untilTime ||
        sc.untilTime.equal sc.fromTime)) = false)
    (rs : List Regexp) (hc : compileCriteriaRegexps sc = some rs)
    (re : Regexp)
    (hre : sc.leStartPattern.bind PatternSrc.compiled = some re)
    (hs1 : 1 ≤ startBufLen1) (hs2 : 1 ≤ startBufLen2)
    (hm : strippedFileSize f ≤ maxBufLen) :
    ReverseSearch (some f) sc startBufLen1 maxBufLen =
      ReverseSearch (some f) sc startBufLen2 maxBufLen := by
  rw [ReverseSearch_refSearch sc startBufLen1 maxBufLen h1 h2 h3 rs hc re
    hre f hs1 hm]
  rw [ReverseSearch_refSearch sc startBufLen2 maxBufLen h1 h2 h3 rs hc re
    hre f hs2 hm]

/-- C4, witness: the concrete scenario searched with `StartBufLen` 7 and
19 (file size 66, logical size 65) returns identical results. -/
theorem claim_C4_witness :
    ReverseSearch (some scenarioFile) scenarioCriteria 7 2000000 =
      ReverseSearch (some scenarioFile) scenarioCriteria 19 2000000 :=
  claim_C4_window_size_independence scenarioFile scenarioCriteria 7 19
    2000000 (by decide) (by decide) (by decide) [] rfl angleRe rfl
    (by decide) (by decide)
    (by set_option maxRecDepth 10000 in decide)

end RSearch
